import Mathlib

/-!
# Tissue miner parser: boundary tracer, thick-vertex resolver and cell registry

A shallow embedding of `Pixel::getLastCommonNeighboringBondPixelInCwOrientation`,
`Pixel::addToThickVertex` (both `parser/Parser/Pixel.cpp`) and of the cell registry of
`TissueState` (`parser/Parser/TissueState.h`), followed by theorems about them.

Conventions of the embedding:
* a `Pixel` is a position; the frame it looks into is passed explicitly;
* a raw read `data()` of a position outside the canvas has no defined value in the program
  (it indexes the raster outside its bounds), so `Pixel.data` returns an `Option` and the
  tracer returns `none` as soon as it performs such a read;
* the C++ `int` return value of the tracer is kept as an `Int` (`-1` is failure), together
  with the final content of the output vector `neighbors`;
* the recursion of `addToThickVertex` is bounded by an explicit depth budget; the entry
  point gives it one more than the number of canvas pixels.
-/

namespace TissueMiner

/-- The type `PixelValue` of raw raster labels (an unsigned integer in the program; only
compared for equality here). -/
abbrev PixelValue := Nat

/-- Modelled from the spec: the raster behind `PixelFrame` (`PixelFrame.h` is not among the
sources): a canvas of `height` rows and `width` columns; `raster row col` is the label stored
at an on-canvas position and is never consulted elsewhere. -/
structure PixelFrame where
  width : Nat
  height : Nat
  raster : Int → Int → PixelValue

namespace PixelFrame

/-- Modelled from the spec: `PixelFrame::NumberOfNeighbors`, the size of the 8-neighbourhood. -/
def NumberOfNeighbors : Nat := 8

/-- Modelled from the spec: `PixelFrame::oppositeDirection`, `opposite(d) = (d+4) mod 8`. -/
def oppositeDirection (d : Nat) : Nat := (d + NumberOfNeighbors / 2) % NumberOfNeighbors

/-- Modelled from the spec: `PixelFrame::diagonalNeighbor`; the eight directions alternate
between orthogonal (even index) and diagonal (odd index) steps. -/
def diagonalNeighbor (index : Nat) : Bool := index % 2 == 1

/-- Modelled from the spec: the fixed table of the eight neighbour offsets `(row, column)` in
clockwise order (rows grow downwards), alternating orthogonal and diagonal steps. -/
def direction (index : Nat) : Int × Int :=
  match index with
  | 0 => (0, 1)
  | 1 => (1, 1)
  | 2 => (1, 0)
  | 3 => (1, -1)
  | 4 => (0, -1)
  | 5 => (-1, -1)
  | 6 => (-1, 0)
  | 7 => (-1, 1)
  | _ => (0, 0)

end PixelFrame

/-- A read-only handle into the raster: the position `(row, col)` it points at. -/
structure Pixel where
  row : Int
  col : Int
deriving DecidableEq, Repr

namespace Pixel

/-- The constant `Pixel::BondValue`. -/
def BondValue : PixelValue := 0x00FFFFFF
/-- The constant `Pixel::OutsideCanvasValue`. -/
def OutsideCanvasValue : PixelValue := 0xFF000000
/-- The constant `Pixel::DividingCellValue`. -/
def DividingCellValue : PixelValue := 0x000000FF

/-- Modelled from the spec: the canvas-bounds test of a position. -/
def isOnCanvas (f : PixelFrame) (p : Pixel) : Bool :=
  decide (0 ≤ p.row) && decide (p.row < (f.height : Int)) &&
    decide (0 ≤ p.col) && decide (p.col < (f.width : Int))

/-- Modelled from the spec: `neighbor(d)`, the view at position + offset(d). -/
def neighbor (p : Pixel) (index : Nat) : Pixel :=
  { row := p.row + (PixelFrame.direction index).1, col := p.col + (PixelFrame.direction index).2 }

/-- Modelled from the spec: `isNeighborOnCanvas(d)` bounds-checks the neighbour without
reading it. -/
def isNeighborOnCanvas (f : PixelFrame) (p : Pixel) (index : Nat) : Bool :=
  isOnCanvas f (neighbor p index)

/-- Modelled from the spec: `isOnMargin()` is true iff any neighbour direction is
off-canvas. -/
def isOnMargin (f : PixelFrame) (p : Pixel) : Bool :=
  (List.range PixelFrame.NumberOfNeighbors).any fun index => !isNeighborOnCanvas f p index

/-- Modelled from the spec: `data()` (the spec's `label()`) reads the raster at this position.
The read is unchecked in the program; outside the canvas it has no defined value, which is
`none` here. -/
def data (f : PixelFrame) (p : Pixel) : Option PixelValue :=
  if isOnCanvas f p then some (f.raster p.row p.col) else none

/-- The local variables of the scanning loop of
`getLastCommonNeighboringBondPixelInCwOrientation` that survive an iteration. -/
structure ScanState where
  firstBondIndexAfterV : Int
  lastValue : PixelValue
  neighbors : List PixelValue
deriving DecidableEq, Repr

/-- What one iteration of the scanning loop does: it either goes on with an updated state or
leaves the function with a `return`. -/
inductive ScanResult where
  | running (s : ScanState)
  | returned (value : Int) (neighbors : List PixelValue)
deriving DecidableEq, Repr

/-- The body of the loop `for(index=NumberOfNeighbors-1; index>=0; --index)` (Pixel.cpp lines
68-83). `none` stands for a raster read outside the canvas; the read of line 69 is guarded by
`isNeighborOnCanvas`, with `OutsideCanvasValue` substituted otherwise. -/
def scanBody (f : PixelFrame) (p : Pixel) (v : PixelValue) (directionOffset : Nat)
    (s : ScanState) (index : Nat) : Option ScanResult :=
  let curIndex := (directionOffset + index) % PixelFrame.NumberOfNeighbors
  (if isNeighborOnCanvas f p curIndex then data f (neighbor p curIndex)
    else some OutsideCanvasValue).bind fun curValue =>
  if curValue ≠ s.lastValue then
    if curValue = BondValue then
      some (ScanResult.running
        { firstBondIndexAfterV :=
            if s.lastValue = v ∧ s.firstBondIndexAfterV < 0 then (curIndex : Int)
            else s.firstBondIndexAfterV
          lastValue := curValue
          neighbors := s.neighbors ++ [s.lastValue] })
    else if s.lastValue ≠ BondValue then
      some (ScanResult.returned (-1) s.neighbors)
    else
      some (ScanResult.running { s with lastValue := curValue })
  else
    some (ScanResult.running s)

/-- The loop of lines 67-84 run for the indices `n-1, n-2, ..., 0`. -/
def scanLoop (f : PixelFrame) (p : Pixel) (v : PixelValue) (directionOffset : Nat) :
    Nat → ScanState → Option ScanResult
  | 0, s => some (ScanResult.running s)
  | n + 1, s =>
    match scanBody f p v directionOffset s n with
    | none => none
    | some (ScanResult.returned value neighbors) => some (ScanResult.returned value neighbors)
    | some (ScanResult.running s') => scanLoop f p v directionOffset n s'

/-- Lines 93-101: the choice between the candidate `firstBondIndexAfterV` and its clockwise
neighbour. The read of line 96 is unchecked and only made when the direction is not
diagonal (short-circuit `&&`). -/
def chooseCwNeighbor (f : PixelFrame) (p : Pixel) (firstBondIndexAfterV : Int) : Option Int :=
  let indexCwNeighbor : Int :=
    (((PixelFrame.NumberOfNeighbors : Int) - 1 + firstBondIndexAfterV)
      % (PixelFrame.NumberOfNeighbors : Int))
  if PixelFrame.diagonalNeighbor indexCwNeighbor.toNat then some firstBondIndexAfterV
  else
    (data f (neighbor p indexCwNeighbor.toNat)).bind fun cwValue =>
      if cwValue = BondValue then some indexCwNeighbor else some firstBondIndexAfterV

/-- Lines 57-84 of `getLastCommonNeighboringBondPixelInCwOrientation`: the unchecked read of
the neighbour at `oppositeDirection(oldDirection)` (line 65) followed by the scanning loop. -/
def scanNeighbors (f : PixelFrame) (p : Pixel) (v : PixelValue) (oldDirection : Nat) :
    Option ScanResult :=
  let directionOffset := PixelFrame.oppositeDirection oldDirection
  (data f (neighbor p directionOffset)).bind fun lastValue =>
    scanLoop f p v directionOffset PixelFrame.NumberOfNeighbors
      { firstBondIndexAfterV := -1, lastValue := lastValue, neighbors := [] }

/-- The method `Pixel::getLastCommonNeighboringBondPixelInCwOrientation` (Pixel.cpp lines
56-102). The result is `none` when the call reads the raster outside the canvas, and
otherwise the returned `int` together with the final content of `neighbors` (which the call
clears first, so its former content is no input). -/
def getLastCommonNeighboringBondPixelInCwOrientation (f : PixelFrame) (p : Pixel)
    (v : PixelValue) (oldDirection : Nat) : Option (Int × List PixelValue) :=
  match scanNeighbors f p v oldDirection with
  | none => none
  | some (ScanResult.returned value neighbors) => some (value, neighbors)
  | some (ScanResult.running s) =>
    if s.firstBondIndexAfterV < 0 then some (-1, s.neighbors)
    else (chooseCwNeighbor f p s.firstBondIndexAfterV).map fun r => (r, s.neighbors)

/-- The label of neighbour `index` as the scan of line 69 sees it: the raster label of an
on-canvas neighbour, `OutsideCanvasValue` for an off-canvas one. -/
def ringValue (f : PixelFrame) (p : Pixel) (index : Nat) : PixelValue :=
  if isNeighborOnCanvas f p index then f.raster (neighbor p index).row (neighbor p index).col
  else OutsideCanvasValue

/-- The ring label met at loop index `i` of a scan that starts from `directionOffset`. -/
def scanValue (f : PixelFrame) (p : Pixel) (directionOffset i : Nat) : PixelValue :=
  ringValue f p ((directionOffset + i) % PixelFrame.NumberOfNeighbors)

/-- Two regions touch between the scan positions `i` and `i+1`: different labels, neither of
which is Bond. -/
def touching (f : PixelFrame) (p : Pixel) (directionOffset i : Nat) : Prop :=
  scanValue f p directionOffset i ≠ scanValue f p directionOffset (i + 1) ∧
    scanValue f p directionOffset i ≠ BondValue ∧
    scanValue f p directionOffset (i + 1) ≠ BondValue

/-- The scan position `i` is a change from label `v` (at `i+1`, scanned just before) to
Bond (at `i`). -/
def hit (f : PixelFrame) (p : Pixel) (v : PixelValue) (directionOffset i : Nat) : Prop :=
  scanValue f p directionOffset i = BondValue ∧ scanValue f p directionOffset (i + 1) = v ∧
    scanValue f p directionOffset i ≠ scanValue f p directionOffset (i + 1)

/-- The label of the neighbour in direction `i mod 8`, off-canvas counted as Outside. -/
def ringAt (f : PixelFrame) (p : Pixel) (i : Int) : PixelValue :=
  ringValue f p (i % 8).toNat

/-- Some two cyclically consecutive neighbours carry different labels neither of which is
Bond (off-canvas neighbours counted as Outside). -/
def AdjacencyViolation (f : PixelFrame) (p : Pixel) : Prop :=
  ∃ j, j < 8 ∧ ringValue f p j ≠ ringValue f p ((j + 1) % 8) ∧
    ringValue f p j ≠ BondValue ∧ ringValue f p ((j + 1) % 8) ≠ BondValue

instance (f : PixelFrame) (p : Pixel) : Decidable (AdjacencyViolation f p) := by
  unfold AdjacencyViolation
  infer_instance

/-- The test of the reference definition at step `k` of the clockwise scan from `d0`:
neighbour `(d0-k) mod 8` is Bond and neighbour `(d0-k+1) mod 8` has label `v`. -/
def endsRunAt (f : PixelFrame) (p : Pixel) (v : PixelValue) (d0 k : Nat) : Bool :=
  ringAt f p ((d0 : Int) - k) == BondValue && ringAt f p ((d0 : Int) - k + 1) == v

/-- The reference definition of the spec's `nextBoundaryPixel`, written from its words: with
`d0 = opposite(d)` and `k` the smallest number in `1..8` such that neighbour `(d0-k) mod 8` is
Bond and neighbour `(d0-k+1) mod 8` has label `v`, the result is `-1` when there is no such `k`;
otherwise, with the candidate `c = (d0-k) mod 8`, it is `(c-1) mod 8` when that direction is
not diagonal and its neighbour is Bond, and `c` otherwise. -/
def nextBoundaryPixel (f : PixelFrame) (p : Pixel) (v : PixelValue) (d : Nat) : Int :=
  let d0 := PixelFrame.oppositeDirection d
  match (List.range' 1 8).find? (endsRunAt f p v d0) with
  | none => -1
  | some k =>
    let c : Int := ((d0 : Int) - k) % 8
    let c1 : Int := (c - 1) % 8
    if !PixelFrame.diagonalNeighbor c1.toNat && ringAt f p c1 == BondValue then c1 else c

end Pixel

/-- A frame given by its rows, for examples: positions outside the listed rows read `0`. -/
def frameOfRows (rows : List (List PixelValue)) : PixelFrame :=
  { width := (rows.headD []).length
    height := rows.length
    raster := fun r c => ((rows.getD r.toNat []).getD c.toNat 0) }

/-! ### Example rasters -/

/-- A horizontal Bond line between region 1 (above) and region 2 (below). -/
def stripesFrame : PixelFrame :=
  frameOfRows [[1, 1, 1], [Pixel.BondValue, Pixel.BondValue, Pixel.BondValue], [2, 2, 2]]

/-- As `stripesFrame`, but regions 1 and 2 touch directly above the Bond line. -/
def touchFrame : PixelFrame :=
  frameOfRows [[1, 2, 2], [Pixel.BondValue, Pixel.BondValue, Pixel.BondValue], [3, 3, 3]]

/-- A two-row raster in which region 1 reaches the upper canvas edge left of the Bond pixel
`(0,1)`. -/
def edgeTouchFrame : PixelFrame :=
  frameOfRows [[1, Pixel.BondValue, Pixel.BondValue], [1, 1, 1]]

/-- A 3x3 raster of Bond pixels only. -/
def bondFrame : PixelFrame :=
  frameOfRows [[Pixel.BondValue, Pixel.BondValue, Pixel.BondValue],
    [Pixel.BondValue, Pixel.BondValue, Pixel.BondValue],
    [Pixel.BondValue, Pixel.BondValue, Pixel.BondValue]]

/-- Region 1 occupies two separate runs (north-west and north-east) around pixel `(1,1)`. -/
def twoRunsFrame : PixelFrame :=
  frameOfRows [[1, Pixel.BondValue, 1], [Pixel.BondValue, Pixel.BondValue, Pixel.BondValue],
    [2, 2, 2]]

/-- A two-row raster whose Bond pixel `(0,1)` lies on the upper canvas edge and has region 1
in two separate runs (south-east and south-west) among its neighbours. -/
def twoRunsEdgeFrame : PixelFrame :=
  frameOfRows [[Pixel.BondValue, Pixel.BondValue, Pixel.BondValue], [1, Pixel.BondValue, 1]]

namespace Pixel

/-- One of the three guarded recursive calls of lines 112-120:
`if(!thickVertex.count(n)) n.addToThickVertex(thickVertex)`; `recurse` is the recursive
call. -/
def visitNeighbor (recurse : Pixel → Finset Pixel → Option (Finset Pixel)) (n : Pixel)
    (thickVertex : Finset Pixel) : Option (Finset Pixel) :=
  if n ∈ thickVertex then some thickVertex else recurse n thickVertex

/-- The body of the loop `for(index=0; index<NumberOfNeighbors; index+=2)` of
`addToThickVertex` (lines 108-121). The three reads of line 111 are only made when the pixel
is not on the margin (short-circuit `&&`), where all neighbours are on the canvas. -/
def expandTriple (recurse : Pixel → Finset Pixel → Option (Finset Pixel)) (f : PixelFrame)
    (p : Pixel) (index : Nat) (thickVertex : Finset Pixel) : Option (Finset Pixel) :=
  let n1 := neighbor p index
  let n2 := neighbor p ((index + 1) % PixelFrame.NumberOfNeighbors)
  let n3 := neighbor p ((index + 2) % PixelFrame.NumberOfNeighbors)
  if !isOnMargin f p && data f n1 == some BondValue && data f n2 == some BondValue
      && data f n3 == some BondValue then
    (visitNeighbor recurse n1 thickVertex).bind fun tv1 =>
      (visitNeighbor recurse n2 tv1).bind fun tv2 =>
        visitNeighbor recurse n3 tv2
  else some thickVertex

/-- The method `Pixel::addToThickVertex` (Pixel.cpp lines 105-123) with a budget for the depth
of the recursion: `none` when the budget is used up. The set `thickVertex` is passed in and
the updated set is returned. -/
def addToThickVertexDepth (f : PixelFrame) : Nat → Pixel → Finset Pixel → Option (Finset Pixel)
  | 0, _, _ => none
  | depth + 1, p, thickVertex =>
    [0, 2, 4, 6].foldl
      (fun acc index => acc.bind (expandTriple (addToThickVertexDepth f depth) f p index))
      (some (insert p thickVertex))

/-- The method `Pixel::addToThickVertex` with a depth budget of one more than the number of
canvas pixels, which the recursion never uses up (`addToThickVertex_total`). -/
def addToThickVertex (f : PixelFrame) (p : Pixel) (thickVertex : Finset Pixel) :
    Option (Finset Pixel) :=
  addToThickVertexDepth f (f.width * f.height + 1) p thickVertex

end Pixel

namespace Pixel

/-- The pixels of the canvas as a finite set. -/
def canvas (f : PixelFrame) : Finset Pixel :=
  (Finset.range f.height ×ˢ Finset.range f.width).image
    fun rc => ({ row := (rc.1 : Int), col := (rc.2 : Int) } : Pixel)

/-- One expansion step of a junction, from the words of the spec: `p` is not on the canvas
margin and `q` is one of three consecutive neighbours `(i, i+1, i+2 mod 8)` of `p`, for some
`i` in `{0,2,4,6}`, whose three pixels are all Bond-labelled. -/
def JunctionStep (f : PixelFrame) (p q : Pixel) : Prop :=
  isOnMargin f p = false ∧ ∃ i, i ∈ [0, 2, 4, 6] ∧
    data f (neighbor p i) = some BondValue ∧
    data f (neighbor p ((i + 1) % 8)) = some BondValue ∧
    data f (neighbor p ((i + 2) % 8)) = some BondValue ∧
    (q = neighbor p i ∨ q = neighbor p ((i + 1) % 8) ∨ q = neighbor p ((i + 2) % 8))

/-- The complete junction of a seed: the pixels reachable from it by zero or more expansion
steps. -/
def InJunction (f : PixelFrame) (p q : Pixel) : Prop :=
  Relation.ReflTransGen (JunctionStep f) p q

/-- What a call of `addToThickVertex` on `p` with the set `S` has achieved when it leaves the
set `S'`: `p` and `S` are in `S'`, every pixel of `S'` was in `S` or belongs to the junction
of `p`, and every pixel the call added has all its expansion steps inside `S'`. -/
def Expanded (f : PixelFrame) (p : Pixel) (S S' : Finset Pixel) : Prop :=
  insert p S ⊆ S' ∧ (∀ q, q ∈ S' → q ∈ S ∨ InJunction f p q) ∧
    (∀ x, x ∈ S' → x ∉ S → ∀ y, JunctionStep f x y → y ∈ S')

end Pixel

namespace Pixel

/-- The invariant of the loop of `addToThickVertex` on `p`, entered with the set `S`: the
current set `tv` contains `p` and `S`, holds only pixels of `S` or of the junction of `p`,
and every pixel added other than `p` has all its expansion steps inside `tv`. -/
def Expanding (f : PixelFrame) (p : Pixel) (S tv : Finset Pixel) : Prop :=
  insert p S ⊆ tv ∧ (∀ q, q ∈ tv → q ∈ S ∨ InJunction f p q) ∧
    (∀ x, x ∈ tv → x ∉ insert p S → ∀ y, JunctionStep f x y → y ∈ tv)

end Pixel

/-- A 4x4 raster of Bond pixels around the single region pixel `(1,1)`. -/
def islandFrame : PixelFrame :=
  frameOfRows [[Pixel.BondValue, Pixel.BondValue, Pixel.BondValue, Pixel.BondValue],
    [Pixel.BondValue, 1, Pixel.BondValue, Pixel.BondValue],
    [Pixel.BondValue, Pixel.BondValue, Pixel.BondValue, Pixel.BondValue],
    [Pixel.BondValue, Pixel.BondValue, Pixel.BondValue, Pixel.BondValue]]

/-! ### The cell registry of `TissueState` -/

/-- The type `CellIndex` of region labels (declared in `Cell.h`, which is not among the
sources; an unsigned label, only compared here). -/
abbrev CellIndex := Nat

/-- Modelled from the spec: the object `new Cell(id)` creates (`Cell.h` is not among the
sources): a region, identified by its label. -/
structure Cell where
  id : CellIndex
deriving DecidableEq, Repr

/-- A `Cell *`: `none` is `NULL`. -/
abbrev CellPtr := Option Cell

/-- The failure of `std::map::at` on a key that is not in the map. -/
inductive MapError where
  | out_of_range
deriving DecidableEq, Repr

/-- The members of `TissueState` that the cell registry operations use: `_cells`, a
`map<CellIndex, Cell*>` (an association list with distinct keys; the registry only stores
pointers obtained from `new Cell`), and `_ignoredCells`. The vertices, the bonds and the
parsing memos are not touched by these operations and are left out. -/
structure TissueState where
  _frameNumber : Int
  _cells : AList fun _ : CellIndex => Cell
  _ignoredCells : Finset CellIndex

namespace TissueState

/-- The method `numberOfCells()`: `_cells.size()` (the conversion to `int` is exact for less
than 2^31 cells and is not modelled). -/
def numberOfCells (t : TissueState) : Nat := t._cells.entries.length

/-- The method `contains(id)`: `_cells.count(id)` as a `bool`. -/
def contains (t : TissueState) (id : CellIndex) : Bool := (t._cells.lookup id).isSome

/-- The method `isOnImageMargin(id)`: `_ignoredCells.count(id)` as a `bool`. -/
def isOnImageMargin (t : TissueState) (id : CellIndex) : Bool := decide (id ∈ t._ignoredCells)

/-- The method `cell(id)`: `_cells.at(id)`, which throws `out_of_range` for a missing key. -/
def cell (t : TissueState) (id : CellIndex) : Except MapError CellPtr :=
  match t._cells.lookup id with
  | some c => Except.ok (some c)
  | none => Except.error MapError.out_of_range

/-- The method `cellCheck(id)`: `contains(id) ? _cells.at(id) : NULL`. -/
def cellCheck (t : TissueState) (id : CellIndex) : Except MapError CellPtr :=
  if t.contains id then t.cell id else Except.ok none

/-- The method `newCell(id)` (TissueState.h lines 106-112): the returned pointer and the
state after the call. -/
def newCell (t : TissueState) (id : CellIndex) : CellPtr × TissueState :=
  if t.contains id then (none, t)
  else (some (Cell.mk id), { t with _cells := t._cells.insert id (Cell.mk id) })

end TissueState

/-- A state with the two cells 3 and 5. -/
def twoCellState : TissueState :=
  { _frameNumber := 0
    _cells := (((∅ : AList fun _ : CellIndex => Cell).insert 3 (Cell.mk 3)).insert 5 (Cell.mk 5))
    _ignoredCells := ∅ }

/-! ### Decoded labels -/

/-- Modelled from the spec: the kinds a raw pixel value decodes to, `{Bond, Outside,
DividingMarker, Cell(index)}` (the program compares raw values and has no such type). -/
inductive Label where
  | Bond
  | Outside
  | DividingMarker
  | Cell (index : PixelValue)
deriving DecidableEq, Repr

/-- Modelled from the spec: the decoding of a raw pixel value by comparison with the three
reserved constants of Pixel.cpp lines 6-8; every other value is a region index. -/
def decodeLabel (x : PixelValue) : Label :=
  if x = Pixel.BondValue then Label.Bond
  else if x = Pixel.OutsideCanvasValue then Label.Outside
  else if x = Pixel.DividingCellValue then Label.DividingMarker
  else Label.Cell x

/-! ### Counting the recursive calls of `addToThickVertex` -/

namespace Pixel

/-- The guarded recursive call of `visitNeighbor`, with a counter of the calls of
`addToThickVertex` made so far: a call that is made counts once, plus the calls made inside
it. -/
def visitNeighborCalls (recurse : Pixel → Finset Pixel → Option (Finset Pixel × Nat))
    (n : Pixel) (acc : Finset Pixel × Nat) : Option (Finset Pixel × Nat) :=
  if n ∈ acc.1 then some acc
  else (recurse n acc.1).map fun r => (r.1, acc.2 + 1 + r.2)

/-- The loop body `expandTriple` with the call counter. -/
def expandTripleCalls (recurse : Pixel → Finset Pixel → Option (Finset Pixel × Nat))
    (f : PixelFrame) (p : Pixel) (index : Nat) (acc : Finset Pixel × Nat) :
    Option (Finset Pixel × Nat) :=
  let n1 := neighbor p index
  let n2 := neighbor p ((index + 1) % PixelFrame.NumberOfNeighbors)
  let n3 := neighbor p ((index + 2) % PixelFrame.NumberOfNeighbors)
  if !isOnMargin f p && data f n1 == some BondValue && data f n2 == some BondValue
      && data f n3 == some BondValue then
    (visitNeighborCalls recurse n1 acc).bind fun acc1 =>
      (visitNeighborCalls recurse n2 acc1).bind fun acc2 =>
        visitNeighborCalls recurse n3 acc2
  else some acc

/-- The method `addToThickVertex` as in `addToThickVertexDepth`, returning with the set the
number of recursive calls made during the call. -/
def addToThickVertexCalls (f : PixelFrame) :
    Nat → Pixel → Finset Pixel → Option (Finset Pixel × Nat)
  | 0, _, _ => none
  | depth + 1, p, thickVertex =>
    [0, 2, 4, 6].foldl
      (fun acc index => acc.bind (expandTripleCalls (addToThickVertexCalls f depth) f p index))
      (some (insert p thickVertex, 0))

end Pixel

/-! ### Runs of labels in the neighbour ring -/

namespace Pixel

/-- In the clockwise scan a run of label `v` ends on the Bond neighbour `c`: neighbour `c` is
Bond and neighbour `(c+1) mod 8`, scanned just before it, has label `v` (which is not
Bond). -/
def runEndsAt (f : PixelFrame) (p : Pixel) (v : PixelValue) (c : Nat) : Prop :=
  ringValue f p c = BondValue ∧ ringValue f p ((c + 1) % 8) = v ∧
    ringValue f p c ≠ ringValue f p ((c + 1) % 8)

/-- The neighbours labelled `v` form at most one cyclic run: at most one neighbour labelled
`v` is followed in the clockwise scan by a neighbour with another label. -/
def SingleRun (f : PixelFrame) (p : Pixel) (v : PixelValue) : Prop :=
  ∀ m, m < 8 → ∀ n, n < 8 →
    ringValue f p m = v ∧ ringValue f p ((m + 7) % 8) ≠ v →
    ringValue f p n = v ∧ ringValue f p ((n + 7) % 8) ≠ v → m = n

instance (f : PixelFrame) (p : Pixel) (v : PixelValue) : Decidable (SingleRun f p v) := by
  unfold SingleRun
  infer_instance

end Pixel

/-- A two-row raster whose Bond pixel `(0,1)` lies on the upper canvas edge above a single
run of region 1. -/
def singleRunEdgeFrame : PixelFrame :=
  frameOfRows [[Pixel.BondValue, Pixel.BondValue, Pixel.BondValue], [1, 1, 1]]

/-- Region 1 ends on the diagonal Bond neighbour south-east of `(1,1)`, whose clockwise
neighbour (east) belongs to region 2. -/
def diagonalFrame : PixelFrame :=
  frameOfRows [[Pixel.BondValue, Pixel.BondValue, 2], [Pixel.BondValue, Pixel.BondValue, 2],
    [1, 1, Pixel.BondValue]]

/-- As `diagonalFrame`, but the east neighbour of `(1,1)` is Bond as well. -/
def cornerFrame : PixelFrame :=
  frameOfRows [[Pixel.BondValue, Pixel.BondValue, Pixel.BondValue],
    [Pixel.BondValue, Pixel.BondValue, Pixel.BondValue], [1, 1, Pixel.BondValue]]

namespace Pixel

end Pixel

namespace Pixel

/-- Lines 66-102 of `getLastCommonNeighboringBondPixelInCwOrientation`: the call from the
scanning loop on, given the word `lastValue` that the read of line 65 yielded. -/
def afterFirstRead (f : PixelFrame) (p : Pixel) (v : PixelValue) (oldDirection : Nat)
    (lastValue : PixelValue) : Option (Int × List PixelValue) :=
  match scanLoop f p v (PixelFrame.oppositeDirection oldDirection) PixelFrame.NumberOfNeighbors
      { firstBondIndexAfterV := -1, lastValue := lastValue, neighbors := [] } with
  | none => none
  | some (ScanResult.returned value neighbors) => some (value, neighbors)
  | some (ScanResult.running s) =>
    if s.firstBondIndexAfterV < 0 then some (-1, s.neighbors)
    else (chooseCwNeighbor f p s.firstBondIndexAfterV).map fun r => (r, s.neighbors)

end Pixel

/-- A 3x3 raster of Bond pixels with the single region pixel `(1,2)`, which is no neighbour
of the edge pixel `(1,0)`. -/
def strayLabelFrame : PixelFrame :=
  frameOfRows [[Pixel.BondValue, Pixel.BondValue, Pixel.BondValue],
    [Pixel.BondValue, Pixel.BondValue, 7],
    [Pixel.BondValue, Pixel.BondValue, Pixel.BondValue]]

end TissueMiner


/-! ## Theorems -/

namespace TissueMiner
namespace Pixel

theorem checked_read_eq (f : PixelFrame) (p : Pixel) (i : Nat) :
    (if isNeighborOnCanvas f p i then data f (neighbor p i) else some OutsideCanvasValue)
      = some (ringValue f p i) := by
  unfold ringValue data isNeighborOnCanvas
  split <;> simp [*]

theorem scanValue_add_eight (f : PixelFrame) (p : Pixel) (d0 i : Nat) :
    scanValue f p d0 (i + 8) = scanValue f p d0 i := by
  unfold scanValue PixelFrame.NumberOfNeighbors
  congr 1
  omega

theorem scanBody_eq (f : PixelFrame) (p : Pixel) (v : PixelValue) (d0 : Nat) (s : ScanState)
    (i : Nat) :
    scanBody f p v d0 s i = some
      (if scanValue f p d0 i ≠ s.lastValue then
        if scanValue f p d0 i = BondValue then
          ScanResult.running
            { firstBondIndexAfterV :=
                if s.lastValue = v ∧ s.firstBondIndexAfterV < 0 then (((d0 + i) % 8 : Nat) : Int)
                else s.firstBondIndexAfterV
              lastValue := scanValue f p d0 i
              neighbors := s.neighbors ++ [s.lastValue] }
        else if s.lastValue ≠ BondValue then ScanResult.returned (-1) s.neighbors
        else ScanResult.running { s with lastValue := scanValue f p d0 i }
      else ScanResult.running s) := by
  simp only [scanBody, checked_read_eq, Option.some_bind, scanValue,
    PixelFrame.NumberOfNeighbors]
  split_ifs <;> rfl

theorem scanBody_running (f : PixelFrame) (p : Pixel) (v : PixelValue) (d0 : Nat)
    (s : ScanState) (n : Nat) (hs : s.lastValue = scanValue f p d0 (n + 1))
    (ht : ¬ touching f p d0 n) :
    ∃ s1, scanBody f p v d0 s n = some (ScanResult.running s1) ∧
      s1.lastValue = scanValue f p d0 n ∧
      (hit f p v d0 n ∧ s.firstBondIndexAfterV < 0 →
        s1.firstBondIndexAfterV = (((d0 + n) % 8 : Nat) : Int)) ∧
      (¬ (hit f p v d0 n ∧ s.firstBondIndexAfterV < 0) →
        s1.firstBondIndexAfterV = s.firstBondIndexAfterV) := by
  rw [scanBody_eq]
  unfold touching at ht
  unfold hit
  rw [← hs] at ht ⊢
  by_cases hc : scanValue f p d0 n = s.lastValue
  · refine ⟨s, by simp [hc], hc.symm, ?_, ?_⟩
    · rintro ⟨⟨_, _, h⟩, _⟩
      exact absurd hc h
    · intro _
      rfl
  · by_cases hb : scanValue f p d0 n = BondValue
    · refine ⟨_, by rw [if_pos (show scanValue f p d0 n ≠ s.lastValue from hc), if_pos hb],
        rfl, ?_, ?_⟩
      · rintro ⟨⟨_, h2, _⟩, h4⟩
        simp [h2, h4]
      · intro h
        have : ¬ (s.lastValue = v ∧ s.firstBondIndexAfterV < 0) := by
          rintro ⟨h1, h2⟩
          exact h ⟨⟨hb, h1, hc⟩, h2⟩
        simp only [this, if_false]
    · have hl : s.lastValue = BondValue := by
        by_contra hl
        exact ht ⟨hc, hb, hl⟩
      refine ⟨{ s with lastValue := scanValue f p d0 n }, by simp [hc, hb, hl], rfl, ?_, ?_⟩
      · rintro ⟨⟨h, _, _⟩, _⟩
        exact absurd h hb
      · intro _
        rfl

theorem scanBody_abort (f : PixelFrame) (p : Pixel) (v : PixelValue) (d0 : Nat)
    (s : ScanState) (n : Nat) (hs : s.lastValue = scanValue f p d0 (n + 1))
    (ht : touching f p d0 n) :
    scanBody f p v d0 s n = some (ScanResult.returned (-1) s.neighbors) := by
  rw [scanBody_eq]
  unfold touching at ht
  rw [← hs] at ht
  simp [ht.1, ht.2.1, ht.2.2]

/-- A scan that meets two touching regions leaves the function with `-1`. -/
theorem scanLoop_abort (f : PixelFrame) (p : Pixel) (v : PixelValue) (d0 : Nat) :
    ∀ (n : Nat) (s : ScanState), s.lastValue = scanValue f p d0 n →
      (∃ i, i < n ∧ touching f p d0 i) →
      ∃ nb, scanLoop f p v d0 n s = some (ScanResult.returned (-1) nb) := by
  intro n
  induction n with
  | zero =>
    rintro s _ ⟨i, hi, _⟩
    omega
  | succ n ih =>
    rintro s hs ⟨i, hi, hti⟩
    by_cases ht : touching f p d0 n
    · exact ⟨s.neighbors, by simp only [scanLoop, scanBody_abort f p v d0 s n hs ht]⟩
    · obtain ⟨s1, h1, h2, -, -⟩ := scanBody_running f p v d0 s n hs ht
      have hin : i < n := by
        rcases Nat.lt_succ_iff_lt_or_eq.mp hi with h | h
        · exact h
        · subst h
          exact absurd hti ht
      obtain ⟨nb, hnb⟩ := ih s1 h2 ⟨i, hin, hti⟩
      exact ⟨nb, by simp only [scanLoop, h1, hnb]⟩

/-- A scan that meets no two touching regions runs to its end; the candidate it leaves is the
first change from `v` to Bond it met, unless one was recorded before. -/
theorem scanLoop_running (f : PixelFrame) (p : Pixel) (v : PixelValue) (d0 : Nat) :
    ∀ (n : Nat) (s : ScanState), s.lastValue = scanValue f p d0 n →
      (∀ i, i < n → ¬ touching f p d0 i) →
      ∃ s', scanLoop f p v d0 n s = some (ScanResult.running s') ∧
        s'.lastValue = scanValue f p d0 0 ∧
        (0 ≤ s.firstBondIndexAfterV → s'.firstBondIndexAfterV = s.firstBondIndexAfterV) ∧
        (s.firstBondIndexAfterV < 0 →
          ((∀ i, i < n → ¬ hit f p v d0 i) ∧
              s'.firstBondIndexAfterV = s.firstBondIndexAfterV) ∨
            ∃ i, i < n ∧ hit f p v d0 i ∧ (∀ j, i < j → j < n → ¬ hit f p v d0 j) ∧
              s'.firstBondIndexAfterV = (((d0 + i) % 8 : Nat) : Int)) := by
  intro n
  induction n with
  | zero =>
    intro s hs _
    exact ⟨s, rfl, hs, fun _ => rfl, fun _ => Or.inl ⟨fun i hi => by omega, rfl⟩⟩
  | succ n ih =>
    intro s hs hnt
    obtain ⟨s1, h1, h2, h3, h4⟩ :=
      scanBody_running f p v d0 s n hs (hnt n (Nat.lt_succ_self n))
    obtain ⟨s', e1, e2, e3, e4⟩ := ih s1 h2 (fun i hi => hnt i (Nat.lt_succ_of_lt hi))
    refine ⟨s', by simp only [scanLoop, h1, e1], e2, ?_, ?_⟩
    · intro h0
      have hs1 : s1.firstBondIndexAfterV = s.firstBondIndexAfterV :=
        h4 (fun h => by omega)
      rw [← hs1]
      exact e3 (by omega)
    · intro hneg
      by_cases hh : hit f p v d0 n
      · right
        have hs1 := h3 ⟨hh, hneg⟩
        refine ⟨n, Nat.lt_succ_self n, hh, fun j h1 h2 => by omega, ?_⟩
        rw [← hs1]
        exact e3 (by omega)
      · have hs1 : s1.firstBondIndexAfterV = s.firstBondIndexAfterV :=
          h4 (fun h => hh h.1)
        rcases e4 (by omega) with ⟨a, b⟩ | ⟨i, hi, hhi, hmax, hv⟩
        · left
          refine ⟨fun i hi => ?_, by rw [b, hs1]⟩
          rcases Nat.lt_succ_iff_lt_or_eq.mp hi with h | h
          · exact a i h
          · subst h
            exact hh
        · right
          refine ⟨i, Nat.lt_succ_of_lt hi, hhi, fun j hj1 hj2 => ?_, hv⟩
          rcases Nat.lt_succ_iff_lt_or_eq.mp hj2 with h | h
          · exact hmax j hj1 h
          · subst h
            exact hh

/-! ### The call as a whole -/

theorem oppositeDirection_lt (d : Nat) : PixelFrame.oppositeDirection d < 8 := by
  unfold PixelFrame.oppositeDirection PixelFrame.NumberOfNeighbors
  omega

theorem BondValue_ne_OutsideCanvasValue : BondValue ≠ OutsideCanvasValue := by
  decide

theorem data_neighbor_of_onCanvas (f : PixelFrame) (p : Pixel) (i : Nat)
    (h : isNeighborOnCanvas f p i = true) :
    data f (neighbor p i) = some (ringValue f p i) := by
  unfold isNeighborOnCanvas at h
  simp [data, ringValue, isNeighborOnCanvas, h]

theorem data_neighbor_of_offCanvas (f : PixelFrame) (p : Pixel) (i : Nat)
    (h : isNeighborOnCanvas f p i = false) :
    data f (neighbor p i) = none := by
  unfold isNeighborOnCanvas at h
  simp [data, h]

theorem ringValue_eq_Bond (f : PixelFrame) (p : Pixel) (i : Nat)
    (h : ringValue f p i = BondValue) :
    isNeighborOnCanvas f p i = true ∧ data f (neighbor p i) = some BondValue := by
  by_cases hc : isNeighborOnCanvas f p i = true
  · exact ⟨hc, by rw [data_neighbor_of_onCanvas f p i hc, h]⟩
  · exfalso
    simp only [ringValue, hc] at h
    exact BondValue_ne_OutsideCanvasValue h.symm

theorem scanValue_eight (f : PixelFrame) (p : Pixel) (d0 : Nat) (hd : d0 < 8) :
    scanValue f p d0 8 = ringValue f p d0 := by
  unfold scanValue PixelFrame.NumberOfNeighbors
  congr 1
  omega

theorem scanNeighbors_of_onCanvas (f : PixelFrame) (p : Pixel) (v : PixelValue) (d : Nat)
    (h : isNeighborOnCanvas f p (PixelFrame.oppositeDirection d) = true) :
    scanNeighbors f p v d = scanLoop f p v (PixelFrame.oppositeDirection d) 8
      { firstBondIndexAfterV := -1
        lastValue := scanValue f p (PixelFrame.oppositeDirection d) 8
        neighbors := [] } := by
  unfold scanNeighbors
  simp only [data_neighbor_of_onCanvas f p _ h, Option.some_bind,
    scanValue_eight f p _ (oppositeDirection_lt d)]
  rfl

theorem scanNeighbors_of_offCanvas (f : PixelFrame) (p : Pixel) (v : PixelValue) (d : Nat)
    (h : isNeighborOnCanvas f p (PixelFrame.oppositeDirection d) = false) :
    scanNeighbors f p v d = none := by
  unfold scanNeighbors
  simp only [data_neighbor_of_offCanvas f p _ h, Option.none_bind]

theorem adjacencyViolation_iff_touching (f : PixelFrame) (p : Pixel) (d0 : Nat) (hd : d0 < 8) :
    AdjacencyViolation f p ↔ ∃ i, i < 8 ∧ touching f p d0 i := by
  unfold AdjacencyViolation touching scanValue PixelFrame.NumberOfNeighbors
  constructor
  · rintro ⟨j, hj, h⟩
    refine ⟨(j + 8 - d0) % 8, by omega, ?_⟩
    have e1 : (d0 + (j + 8 - d0) % 8) % 8 = j := by omega
    have e2 : (d0 + ((j + 8 - d0) % 8 + 1)) % 8 = (j + 1) % 8 := by omega
    rw [e1, e2]
    exact h
  · rintro ⟨i, hi, h⟩
    refine ⟨(d0 + i) % 8, by omega, ?_⟩
    have e2 : ((d0 + i) % 8 + 1) % 8 = (d0 + (i + 1)) % 8 := by omega
    rw [e2]
    exact h

/-- The two orthogonal neighbours that flank an on-canvas diagonal neighbour of an on-canvas
pixel are on the canvas as well. -/
theorem isNeighborOnCanvas_flank (f : PixelFrame) (p : Pixel) (c : Nat) (hc : c < 8)
    (hp : isOnCanvas f p = true) (hodd : c % 2 = 1) (h : isNeighborOnCanvas f p c = true) :
    isNeighborOnCanvas f p ((c + 7) % 8) = true ∧ isNeighborOnCanvas f p ((c + 1) % 8) = true := by
  have hcases : c = 1 ∨ c = 3 ∨ c = 5 ∨ c = 7 := by omega
  rcases hcases with rfl | rfl | rfl | rfl <;>
    simp only [isNeighborOnCanvas, isOnCanvas, neighbor, PixelFrame.direction, Bool.and_eq_true,
      decide_eq_true_eq, Nat.reduceAdd, Nat.reduceMod] at h hp ⊢ <;>
    omega

/-- The adjustment of lines 93-101 for a candidate `c` that is an on-canvas neighbour of an
on-canvas pixel: the read of line 96 stays on the canvas. -/
theorem chooseCwNeighbor_eq (f : PixelFrame) (p : Pixel) (c : Nat) (hc : c < 8)
    (hp : isOnCanvas f p = true) (h : isNeighborOnCanvas f p c = true) :
    chooseCwNeighbor f p (c : Int) = some
      (if PixelFrame.diagonalNeighbor ((c + 7) % 8) = false ∧ ringValue f p ((c + 7) % 8) = BondValue
        then (((c + 7) % 8 : Nat) : Int) else (c : Int)) := by
  have e : (((PixelFrame.NumberOfNeighbors : Int) - 1 + (c : Int))
      % (PixelFrame.NumberOfNeighbors : Int)) = (((c + 7) % 8 : Nat) : Int) := by
    unfold PixelFrame.NumberOfNeighbors
    omega
  unfold chooseCwNeighbor
  simp only [e, Int.toNat_ofNat]
  by_cases hd : PixelFrame.diagonalNeighbor ((c + 7) % 8) = true
  · simp [hd]
  · have hodd : c % 2 = 1 := by
      simp only [PixelFrame.diagonalNeighbor, beq_iff_eq] at hd
      omega
    have hon := (isNeighborOnCanvas_flank f p c hc hp hodd h).1
    simp only [hd, data_neighbor_of_onCanvas f p _ hon, Option.some_bind]
    simp only [Bool.not_eq_true] at hd
    by_cases hr : ringValue f p ((c + 7) % 8) = BondValue <;> simp [hd, hr]

theorem isOnCanvas_of_data (f : PixelFrame) (q : Pixel) (x : PixelValue)
    (h : data f q = some x) : isOnCanvas f q = true := by
  unfold data at h
  by_cases hc : isOnCanvas f q = true
  · exact hc
  · simp [hc] at h

/-- Whatever lines 93-101 return for a Bond candidate is a direction whose neighbour is a
Bond pixel of the canvas. -/
theorem chooseCwNeighbor_sound (f : PixelFrame) (p : Pixel) (c : Nat) (hc : c < 8)
    (hb : ringValue f p c = BondValue) (r : Int) (h : chooseCwNeighbor f p (c : Int) = some r) :
    0 ≤ r ∧ r < 8 ∧ data f (neighbor p r.toNat) = some BondValue := by
  have e : (((PixelFrame.NumberOfNeighbors : Int) - 1 + (c : Int))
      % (PixelFrame.NumberOfNeighbors : Int)) = (((c + 7) % 8 : Nat) : Int) := by
    unfold PixelFrame.NumberOfNeighbors
    omega
  have hcand : 0 ≤ (c : Int) ∧ (c : Int) < 8 ∧
      data f (neighbor p (c : Int).toNat) = some BondValue := by
    refine ⟨by omega, by omega, ?_⟩
    rw [Int.toNat_ofNat]
    exact (ringValue_eq_Bond f p c hb).2
  unfold chooseCwNeighbor at h
  simp only [e, Int.toNat_ofNat] at h
  by_cases hd : PixelFrame.diagonalNeighbor ((c + 7) % 8) = true
  · simp only [hd, if_true, Option.some.injEq] at h
    rw [← h]
    exact hcand
  · simp only [hd, Bool.false_eq_true, if_false] at h
    cases hx : data f (neighbor p ((c + 7) % 8)) with
    | none => simp [hx] at h
    | some x =>
      simp only [hx, Option.some_bind] at h
      by_cases hxb : x = BondValue
      · simp only [hxb, if_true, Option.some.injEq] at h
        rw [← h]
        refine ⟨by omega, by omega, ?_⟩
        rw [Int.toNat_ofNat, hx, hxb]
      · simp only [hxb, if_false, Option.some.injEq] at h
        rw [← h]
        exact hcand

/-- The three ways a call whose first read is on the canvas can go: it meets two touching
regions and returns `-1`; it finds no change from `v` to Bond and returns `-1`; or it records
the first such change as candidate and hands it to lines 93-101. -/
theorem call_cases (f : PixelFrame) (p : Pixel) (v : PixelValue) (d : Nat)
    (h : isNeighborOnCanvas f p (PixelFrame.oppositeDirection d) = true) :
    (AdjacencyViolation f p ∧
        ∃ nb, scanNeighbors f p v d = some (ScanResult.returned (-1) nb) ∧
          getLastCommonNeighboringBondPixelInCwOrientation f p v d = some (-1, nb)) ∨
      (¬ AdjacencyViolation f p ∧
        ∃ s, scanNeighbors f p v d = some (ScanResult.running s) ∧
          (((∀ i, i < 8 → ¬ hit f p v (PixelFrame.oppositeDirection d) i) ∧
              s.firstBondIndexAfterV = -1 ∧
              getLastCommonNeighboringBondPixelInCwOrientation f p v d
                = some (-1, s.neighbors)) ∨
            ∃ i, i < 8 ∧ hit f p v (PixelFrame.oppositeDirection d) i ∧
              (∀ j, i < j → j < 8 → ¬ hit f p v (PixelFrame.oppositeDirection d) j) ∧
              s.firstBondIndexAfterV = (((PixelFrame.oppositeDirection d + i) % 8 : Nat) : Int) ∧
              getLastCommonNeighboringBondPixelInCwOrientation f p v d
                = (chooseCwNeighbor f p
                    (((PixelFrame.oppositeDirection d + i) % 8 : Nat) : Int)).map
                  fun r => (r, s.neighbors))) := by
  have hd := oppositeDirection_lt d
  have hscan := scanNeighbors_of_onCanvas f p v d h
  by_cases hv : AdjacencyViolation f p
  · left
    refine ⟨hv, ?_⟩
    obtain ⟨nb, hnb⟩ := scanLoop_abort f p v _ 8
      { firstBondIndexAfterV := -1
        lastValue := scanValue f p (PixelFrame.oppositeDirection d) 8
        neighbors := [] } rfl
      ((adjacencyViolation_iff_touching f p _ hd).mp hv)
    refine ⟨nb, by rw [hscan, hnb], ?_⟩
    unfold getLastCommonNeighboringBondPixelInCwOrientation
    rw [hscan, hnb]
  · right
    refine ⟨hv, ?_⟩
    have hnt : ∀ i, i < 8 → ¬ touching f p (PixelFrame.oppositeDirection d) i := by
      intro i hi ht
      exact hv ((adjacencyViolation_iff_touching f p _ hd).mpr ⟨i, hi, ht⟩)
    obtain ⟨s, e1, -, -, e4⟩ := scanLoop_running f p v _ 8
      { firstBondIndexAfterV := -1
        lastValue := scanValue f p (PixelFrame.oppositeDirection d) 8
        neighbors := [] } rfl hnt
    refine ⟨s, by rw [hscan, e1], ?_⟩
    rcases e4 (by show (-1 : Int) < 0; omega) with ⟨a, b⟩ | ⟨i, hi, hhi, hmax, hfirst⟩
    · left
      refine ⟨a, b, ?_⟩
      unfold getLastCommonNeighboringBondPixelInCwOrientation
      rw [hscan, e1]
      simp [b]
    · right
      refine ⟨i, hi, hhi, hmax, hfirst, ?_⟩
      unfold getLastCommonNeighboringBondPixelInCwOrientation
      rw [hscan, e1]
      have : ¬ s.firstBondIndexAfterV < 0 := by omega
      simp only [this, if_false]
      rw [hfirst]

/-- A call on an on-canvas pixel whose first read is on the canvas makes no read outside the
canvas: it returns a value. -/
theorem call_defined (f : PixelFrame) (p : Pixel) (v : PixelValue) (d : Nat)
    (hp : isOnCanvas f p = true)
    (hstart : isNeighborOnCanvas f p (PixelFrame.oppositeDirection d) = true) :
    ∃ r nb, getLastCommonNeighboringBondPixelInCwOrientation f p v d = some (r, nb) := by
  rcases call_cases f p v d hstart with ⟨_, nb, _, h⟩ | ⟨_, s, _, ⟨_, _, h⟩ | ⟨i, _, hh, _, _, h⟩⟩
  · exact ⟨-1, nb, h⟩
  · exact ⟨-1, s.neighbors, h⟩
  · have hon := (ringValue_eq_Bond f p _ hh.1).1
    rw [chooseCwNeighbor_eq f p _ (Nat.mod_lt _ (by decide)) hp hon] at h
    exact ⟨_, s.neighbors, h⟩

/-! ### Claims about the tracer step -/

/-- Calls whose first read (line 65) is on the canvas report an adjacency violation: for
every pixel, entering direction and region label such that the
neighbour at `oppositeDirection(oldDirection)` is on the canvas, if some two cyclically
consecutive neighbours (off-canvas counted as Outside) carry different labels neither of
which is Bond, the call returns `-1`, wherever the touching pair lies in the ring. -/
theorem adjacency_violation_returns_failure (f : PixelFrame) (p : Pixel) (v : PixelValue)
    (d : Nat) (hstart : isNeighborOnCanvas f p (PixelFrame.oppositeDirection d) = true)
    (hviol : AdjacencyViolation f p) :
    ∃ nb, getLastCommonNeighboringBondPixelInCwOrientation f p v d = some (-1, nb) := by
  rcases call_cases f p v d hstart with ⟨_, nb, _, h⟩ | ⟨hno, _⟩
  · exact ⟨nb, h⟩
  · exact absurd hviol hno

theorem adjacency_violation_returns_failure_witness :
    isNeighborOnCanvas touchFrame ⟨1, 1⟩ (PixelFrame.oppositeDirection 0) = true ∧
      AdjacencyViolation touchFrame ⟨1, 1⟩ ∧
      ∃ nb, getLastCommonNeighboringBondPixelInCwOrientation touchFrame ⟨1, 1⟩ 3 0
        = some (-1, nb) :=
  ⟨by decide, by decide,
    adjacency_violation_returns_failure touchFrame ⟨1, 1⟩ 3 0 (by decide) (by decide)⟩

/-- Calls whose first read (line 65) is on the canvas report a missing label: for every
pixel, entering direction and region label `v` such that the
neighbour at `oppositeDirection(oldDirection)` is on the canvas, if none of the eight
neighbours (off-canvas counted as Outside) has label `v`, the call returns `-1`. -/
theorem missing_label_returns_failure (f : PixelFrame) (p : Pixel) (v : PixelValue) (d : Nat)
    (hstart : isNeighborOnCanvas f p (PixelFrame.oppositeDirection d) = true)
    (habsent : ∀ j, j < 8 → ringValue f p j ≠ v) :
    ∃ nb, getLastCommonNeighboringBondPixelInCwOrientation f p v d = some (-1, nb) := by
  rcases call_cases f p v d hstart with ⟨_, nb, _, h⟩ | ⟨_, s, _, ⟨_, _, h⟩ | ⟨i, _, hh, _⟩⟩
  · exact ⟨nb, h⟩
  · exact ⟨s.neighbors, h⟩
  · exfalso
    refine habsent ((PixelFrame.oppositeDirection d + (i + 1)) % 8) (Nat.mod_lt _ (by decide)) ?_
    exact hh.2.1

theorem missing_label_returns_failure_witness :
    isNeighborOnCanvas stripesFrame ⟨1, 1⟩ (PixelFrame.oppositeDirection 0) = true ∧
      (∀ j, j < 8 → ringValue stripesFrame ⟨1, 1⟩ j ≠ 9) ∧
      ∃ nb, getLastCommonNeighboringBondPixelInCwOrientation stripesFrame ⟨1, 1⟩ 9 0
        = some (-1, nb) :=
  ⟨by decide, by decide,
    missing_label_returns_failure stripesFrame ⟨1, 1⟩ 9 0 (by decide) (by decide)⟩

/-- C5: whenever the call returns a value other than `-1`, that value is a direction in
`0..7` and the neighbour of the current pixel in that direction is on the canvas and
Bond-labelled. -/
theorem returned_direction_is_bond_pixel (f : PixelFrame) (p : Pixel) (v : PixelValue)
    (d : Nat) (r : Int) (nb : List PixelValue)
    (hret : getLastCommonNeighboringBondPixelInCwOrientation f p v d = some (r, nb))
    (hok : r ≠ -1) :
    0 ≤ r ∧ r < 8 ∧ isNeighborOnCanvas f p r.toNat = true ∧
      data f (neighbor p r.toNat) = some BondValue := by
  by_cases hstart : isNeighborOnCanvas f p (PixelFrame.oppositeDirection d) = true
  · rcases call_cases f p v d hstart with ⟨_, nb1, _, h⟩ | ⟨_, s, _, ⟨_, _, h⟩ | ⟨i, _, hh, _, _, h⟩⟩
    · rw [h] at hret
      simp only [Option.some.injEq, Prod.mk.injEq] at hret
      exact absurd hret.1.symm hok
    · rw [h] at hret
      simp only [Option.some.injEq, Prod.mk.injEq] at hret
      exact absurd hret.1.symm hok
    · rw [h] at hret
      cases hc : chooseCwNeighbor f p (((PixelFrame.oppositeDirection d + i) % 8 : Nat) : Int) with
      | none =>
        rw [hc] at hret
        cases hret
      | some r1 =>
        simp only [hc, Option.map_some', Option.some.injEq, Prod.mk.injEq] at hret
        obtain ⟨h1, h2, h3⟩ := chooseCwNeighbor_sound f p _ (Nat.mod_lt _ (by decide)) hh.1 r1 hc
        rw [← hret.1]
        exact ⟨h1, h2, isOnCanvas_of_data f _ _ h3, h3⟩
  · exfalso
    simp only [Bool.not_eq_true] at hstart
    unfold getLastCommonNeighboringBondPixelInCwOrientation at hret
    rw [scanNeighbors_of_offCanvas f p v d hstart] at hret
    simp at hret

theorem returned_direction_is_bond_pixel_witness :
    getLastCommonNeighboringBondPixelInCwOrientation stripesFrame ⟨1, 1⟩ 1 0 = some (4, [2, 1]) ∧
      (0 : Int) ≤ 4 ∧ (4 : Int) < 8 ∧ isNeighborOnCanvas stripesFrame ⟨1, 1⟩ (4 : Int).toNat = true ∧
      data stripesFrame (neighbor ⟨1, 1⟩ (4 : Int).toNat) = some BondValue :=
  ⟨by decide,
    returned_direction_is_bond_pixel stripesFrame ⟨1, 1⟩ 1 0 4 [2, 1] (by decide) (by decide)⟩

/-- C9 fails on the code: the corner pixel `(0,0)` of `bondFrame` is on the canvas, and with
`oldDirection = 0` the call reads its west neighbour (line 65), which is off the canvas,
without a bounds check; the embedding reports that read as `none`. -/
theorem first_read_leaves_canvas :
    isOnCanvas bondFrame ⟨0, 0⟩ = true ∧
      isNeighborOnCanvas bondFrame ⟨0, 0⟩ (PixelFrame.oppositeDirection 0) = false ∧
      getLastCommonNeighboringBondPixelInCwOrientation bondFrame ⟨0, 0⟩ 1 0 = none := by
  decide

/-! ### The reference definition of the spec -/

theorem endsRunAt_iff_hit (f : PixelFrame) (p : Pixel) (v : PixelValue) (d0 k : Nat)
    (hv : v ≠ BondValue) (hk1 : 1 ≤ k) (hk8 : k ≤ 8) :
    endsRunAt f p v d0 k = true ↔ hit f p v d0 (8 - k) := by
  have e1 : ((((d0 : Int) - (k : Int)) % 8).toNat) = (d0 + (8 - k)) % 8 := by omega
  have e2 : ((((d0 : Int) - (k : Int) + 1) % 8).toNat) = (d0 + (8 - k + 1)) % 8 := by omega
  unfold endsRunAt hit ringAt scanValue PixelFrame.NumberOfNeighbors
  rw [e1, e2]
  simp only [Bool.and_eq_true, beq_iff_eq]
  constructor
  · rintro ⟨h1, h2⟩
    refine ⟨h1, h2, ?_⟩
    rw [h1, h2]
    exact fun h => hv h.symm
  · rintro ⟨h1, h2, _⟩
    exact ⟨h1, h2⟩

theorem find_endsRunAt_none (f : PixelFrame) (p : Pixel) (v : PixelValue) (d0 : Nat)
    (hv : v ≠ BondValue) (hnone : ∀ i, i < 8 → ¬ hit f p v d0 i) :
    (List.range' 1 8).find? (endsRunAt f p v d0) = none := by
  rw [List.find?_range'_eq_none]
  intro k hk1 hk2
  have hk8 : k ≤ 8 := by omega
  have := hnone (8 - k) (by omega)
  rw [← endsRunAt_iff_hit f p v d0 k hv hk1 hk8] at this
  simpa using this

theorem find_endsRunAt_some (f : PixelFrame) (p : Pixel) (v : PixelValue) (d0 i : Nat)
    (hv : v ≠ BondValue) (hi : i < 8) (hh : hit f p v d0 i)
    (hmax : ∀ j, i < j → j < 8 → ¬ hit f p v d0 j) :
    (List.range' 1 8).find? (endsRunAt f p v d0) = some (8 - i) := by
  rw [List.find?_range'_eq_some]
  refine ⟨?_, ?_, ?_⟩
  · rw [endsRunAt_iff_hit f p v d0 (8 - i) hv (by omega) (by omega)]
    have : 8 - (8 - i) = i := by omega
    rw [this]
    exact hh
  · rw [List.mem_range'_1]
    omega
  · intro k hk1 hk2
    have := hmax (8 - k) (by omega) (by omega)
    rw [← endsRunAt_iff_hit f p v d0 k hv hk1 (by omega)] at this
    simpa using this

theorem nextBoundaryPixel_of_none (f : PixelFrame) (p : Pixel) (v : PixelValue) (d : Nat)
    (h : (List.range' 1 8).find? (endsRunAt f p v (PixelFrame.oppositeDirection d)) = none) :
    nextBoundaryPixel f p v d = -1 := by
  unfold nextBoundaryPixel
  simp only [h]

theorem nextBoundaryPixel_of_some (f : PixelFrame) (p : Pixel) (v : PixelValue) (d i : Nat)
    (hi : i < 8)
    (h : (List.range' 1 8).find? (endsRunAt f p v (PixelFrame.oppositeDirection d))
      = some (8 - i)) :
    nextBoundaryPixel f p v d =
      (if PixelFrame.diagonalNeighbor (((PixelFrame.oppositeDirection d + i) % 8 + 7) % 8) = false ∧
          ringValue f p (((PixelFrame.oppositeDirection d + i) % 8 + 7) % 8) = BondValue
        then ((((PixelFrame.oppositeDirection d + i) % 8 + 7) % 8 : Nat) : Int)
        else (((PixelFrame.oppositeDirection d + i) % 8 : Nat) : Int)) := by
  have e1 : (((PixelFrame.oppositeDirection d : Nat) : Int) - ((8 - i : Nat) : Int)) % 8
      = (((PixelFrame.oppositeDirection d + i) % 8 : Nat) : Int) := by omega
  have e2 : ((((PixelFrame.oppositeDirection d + i) % 8 : Nat) : Int) - 1) % 8
      = ((((PixelFrame.oppositeDirection d + i) % 8 + 7) % 8 : Nat) : Int) := by omega
  have e3 : (((((PixelFrame.oppositeDirection d + i) % 8 + 7) % 8 : Nat) : Int) % 8).toNat
      = ((PixelFrame.oppositeDirection d + i) % 8 + 7) % 8 := by omega
  unfold nextBoundaryPixel
  simp only [h, e1, e2, ringAt, e3, Int.toNat_ofNat]
  by_cases hd : PixelFrame.diagonalNeighbor (((PixelFrame.oppositeDirection d + i) % 8 + 7) % 8)
      = true
  · simp [hd]
  · simp only [Bool.not_eq_true] at hd
    by_cases hr : ringValue f p (((PixelFrame.oppositeDirection d + i) % 8 + 7) % 8) = BondValue
    · simp [hd, hr]
    · simp [hd, hr]

/-- Calls whose first read (line 65) is on the canvas agree with the reference definition:
for every on-canvas pixel, entering direction `d` whose neighbour at
`opposite(d)` is on the canvas, and region label `v` other than Bond, if the neighbour ring
has no adjacency violation then the value returned by
`getLastCommonNeighboringBondPixelInCwOrientation` is the one of the reference definition
`nextBoundaryPixel`. -/
theorem call_agrees_with_reference (f : PixelFrame) (p : Pixel) (v : PixelValue) (d : Nat)
    (hp : isOnCanvas f p = true)
    (hstart : isNeighborOnCanvas f p (PixelFrame.oppositeDirection d) = true)
    (hv : v ≠ BondValue) (hno : ¬ AdjacencyViolation f p) :
    (getLastCommonNeighboringBondPixelInCwOrientation f p v d).map Prod.fst
      = some (nextBoundaryPixel f p v d) := by
  rcases call_cases f p v d hstart with ⟨hviol, _⟩ | ⟨_, s, _, ⟨hnone, _, h⟩ | ⟨i, hi, hh, hmax, _, h⟩⟩
  · exact absurd hviol hno
  · rw [h, nextBoundaryPixel_of_none f p v d (find_endsRunAt_none f p v _ hv hnone)]
    rfl
  · have hon := (ringValue_eq_Bond f p _ hh.1).1
    rw [h, chooseCwNeighbor_eq f p _ (Nat.mod_lt _ (by decide)) hp hon,
      nextBoundaryPixel_of_some f p v d i hi (find_endsRunAt_some f p v _ i hv hi hh hmax)]
    rfl

theorem call_agrees_with_reference_witness :
    isOnCanvas stripesFrame ⟨1, 1⟩ = true ∧
      isNeighborOnCanvas stripesFrame ⟨1, 1⟩ (PixelFrame.oppositeDirection 0) = true ∧
      (1 : PixelValue) ≠ BondValue ∧ ¬ AdjacencyViolation stripesFrame ⟨1, 1⟩ ∧
      (getLastCommonNeighboringBondPixelInCwOrientation stripesFrame ⟨1, 1⟩ 1 0).map Prod.fst
        = some (nextBoundaryPixel stripesFrame ⟨1, 1⟩ 1 0) :=
  ⟨by decide, by decide, by decide, by decide,
    call_agrees_with_reference stripesFrame ⟨1, 1⟩ 1 0 (by decide) (by decide) (by decide)
      (by decide)⟩

/-- Where a run of `v` ends in scan order (the next scanned neighbour is not `v`) in a ring
without adjacency violation, the scan meets a change from `v` to Bond. -/
theorem hit_of_run_end (f : PixelFrame) (p : Pixel) (v : PixelValue) (d0 m : Nat)
    (hd : d0 < 8) (hm : m < 8) (hv : v ≠ BondValue) (hno : ¬ AdjacencyViolation f p)
    (h1 : ringValue f p m = v) (h2 : ringValue f p ((m + 7) % 8) ≠ v) :
    ∃ i, i < 8 ∧ hit f p v d0 i := by
  have e : ((m + 7) % 8 + 1) % 8 = m := by omega
  have hb : ringValue f p ((m + 7) % 8) = BondValue := by
    by_contra hb
    refine hno ⟨(m + 7) % 8, by omega, ?_, hb, ?_⟩
    · rw [e, h1]
      exact h2
    · rw [e, h1]
      exact hv
  refine ⟨((m + 7) % 8 + 8 - d0) % 8, by omega, ?_⟩
  have e1 : (d0 + ((m + 7) % 8 + 8 - d0) % 8) % 8 = (m + 7) % 8 := by omega
  have e2 : (d0 + (((m + 7) % 8 + 8 - d0) % 8 + 1)) % 8 = m := by omega
  unfold hit scanValue PixelFrame.NumberOfNeighbors
  rw [e1, e2, hb, h1]
  exact ⟨rfl, rfl, fun h => hv h.symm⟩

/-- Calls whose first read (line 65) is on the canvas take the end of the first run as
candidate: for every on-canvas pixel and entering direction whose neighbour at
`oppositeDirection(oldDirection)` is on the canvas, if the ring has no adjacency violation
and the region label `v` (not Bond) occupies two or more separate runs, then the scan runs to
its end without raising an error, the candidate it records is `(d0-k) mod 8` for the smallest
`k` in `1..8` at which a run of `v` ends on a Bond neighbour (the end of the first `v`-run
met from `d0 = oppositeDirection(oldDirection)`), and the call returns a direction, not
`-1`. -/
theorem first_run_end_is_candidate (f : PixelFrame) (p : Pixel) (v : PixelValue) (d : Nat)
    (hp : isOnCanvas f p = true)
    (hstart : isNeighborOnCanvas f p (PixelFrame.oppositeDirection d) = true)
    (hv : v ≠ BondValue) (hno : ¬ AdjacencyViolation f p)
    (hruns : ∃ m n, m < 8 ∧ n < 8 ∧ m ≠ n ∧
      (ringValue f p m = v ∧ ringValue f p ((m + 7) % 8) ≠ v) ∧
      (ringValue f p n = v ∧ ringValue f p ((n + 7) % 8) ≠ v)) :
    ∃ s k, scanNeighbors f p v d = some (ScanResult.running s) ∧
      (List.range' 1 8).find? (endsRunAt f p v (PixelFrame.oppositeDirection d)) = some k ∧
      s.firstBondIndexAfterV = ((PixelFrame.oppositeDirection d : Int) - k) % 8 ∧
      ∃ r nb, getLastCommonNeighboringBondPixelInCwOrientation f p v d = some (r, nb) ∧
        r ≠ -1 := by
  obtain ⟨m, n, hm, -, -, ⟨hm1, hm2⟩, -⟩ := hruns
  obtain ⟨t, ht, hht⟩ := hit_of_run_end f p v _ m (oppositeDirection_lt d) hm hv hno hm1 hm2
  rcases call_cases f p v d hstart with
    ⟨hviol, _⟩ | ⟨_, s, hs, ⟨hnone, _, _⟩ | ⟨i, hi, hh, hmax, hfirst, h⟩⟩
  · exact absurd hviol hno
  · exact absurd hht (hnone t ht)
  · have hon := (ringValue_eq_Bond f p _ hh.1).1
    refine ⟨s, 8 - i, hs, find_endsRunAt_some f p v _ i hv hi hh hmax, ?_, ?_⟩
    · rw [hfirst]
      omega
    · rw [chooseCwNeighbor_eq f p _ (Nat.mod_lt _ (by decide)) hp hon] at h
      refine ⟨_, s.neighbors, h, ?_⟩
      split_ifs <;> omega

theorem first_run_end_is_candidate_witness :
    ∃ s k, scanNeighbors twoRunsFrame ⟨1, 1⟩ 1 0 = some (ScanResult.running s) ∧
      (List.range' 1 8).find? (endsRunAt twoRunsFrame ⟨1, 1⟩ 1 (PixelFrame.oppositeDirection 0))
        = some k ∧
      s.firstBondIndexAfterV = ((PixelFrame.oppositeDirection 0 : Int) - k) % 8 ∧
      ∃ r nb, getLastCommonNeighboringBondPixelInCwOrientation twoRunsFrame ⟨1, 1⟩ 1 0
          = some (r, nb) ∧ r ≠ -1 :=
  first_run_end_is_candidate twoRunsFrame ⟨1, 1⟩ 1 0 (by decide) (by decide) (by decide)
    (by decide) ⟨5, 7, by decide, by decide, by decide, by decide, by decide⟩

/-! ### The thick-vertex resolver -/

theorem mem_canvas (f : PixelFrame) (q : Pixel) : q ∈ canvas f ↔ isOnCanvas f q = true := by
  unfold canvas isOnCanvas
  simp only [Finset.mem_image, Finset.mem_product, Finset.mem_range,
    Prod.exists, Bool.and_eq_true, decide_eq_true_eq]
  constructor
  · rintro ⟨a, b, ⟨ha, hb⟩, rfl⟩
    simp only
    omega
  · rintro ⟨⟨⟨h1, h2⟩, h3⟩, h4⟩
    refine ⟨q.row.toNat, q.col.toNat, ⟨by omega, by omega⟩, ?_⟩
    cases q with
    | mk r c =>
      simp only at h1 h2 h3 h4 ⊢
      rw [Int.toNat_of_nonneg h1, Int.toNat_of_nonneg h3]

theorem card_canvas_le (f : PixelFrame) : (canvas f).card ≤ f.width * f.height := by
  unfold canvas
  refine le_trans Finset.card_image_le ?_
  rw [Finset.card_product, Finset.card_range, Finset.card_range,
    Nat.mul_comm]

theorem isNeighborOnCanvas_of_not_margin (f : PixelFrame) (p : Pixel) (i : Nat) (hi : i < 8)
    (h : isOnMargin f p = false) : isNeighborOnCanvas f p i = true := by
  unfold isOnMargin PixelFrame.NumberOfNeighbors at h
  rw [List.any_eq_false] at h
  have := h i (List.mem_range.mpr hi)
  simpa using this

theorem neighbor_mem_canvas (f : PixelFrame) (p : Pixel) (i : Nat) (hi : i < 8)
    (h : isOnMargin f p = false) : neighbor p i ∈ canvas f :=
  (mem_canvas f _).mpr (isNeighborOnCanvas_of_not_margin f p i hi h)

/-- The reads of line 111 are made on the canvas: they are only reached when the pixel is
not on the margin. -/
theorem data_neighbor_of_not_margin (f : PixelFrame) (p : Pixel) (i : Nat) (hi : i < 8)
    (h : isOnMargin f p = false) :
    data f (neighbor p i) = some (f.raster (neighbor p i).row (neighbor p i).col) := by
  have := isNeighborOnCanvas_of_not_margin f p i hi h
  unfold isNeighborOnCanvas at this
  simp [data, this]

theorem junctionStep_mem_canvas (f : PixelFrame) (p q : Pixel) (h : JunctionStep f p q) :
    q ∈ canvas f := by
  obtain ⟨hm, i, hi, -, -, -, hq⟩ := h
  have hi8 : i < 8 := by
    simp only [List.mem_cons, List.mem_singleton, List.not_mem_nil, or_false] at hi
    omega
  rcases hq with rfl | rfl | rfl
  · exact neighbor_mem_canvas f p i hi8 hm
  · exact neighbor_mem_canvas f p _ (Nat.mod_lt _ (by decide)) hm
  · exact neighbor_mem_canvas f p _ (Nat.mod_lt _ (by decide)) hm

theorem card_sdiff_insert_lt (f : PixelFrame) (n : Pixel) (tv : Finset Pixel)
    (hn : n ∈ canvas f) (hnot : n ∉ tv) :
    (canvas f \ insert n tv).card < (canvas f \ tv).card := by
  rw [Finset.sdiff_insert]
  exact Finset.card_erase_lt_of_mem (Finset.mem_sdiff.mpr ⟨hn, hnot⟩)

theorem visitNeighbor_spec (f : PixelFrame)
    (recurse : Pixel → Finset Pixel → Option (Finset Pixel)) (depth : Nat)
    (hrec : ∀ n tv, (canvas f \ insert n tv).card < depth →
      ∃ tv', recurse n tv = some tv' ∧ Expanded f n tv tv')
    (p n : Pixel) (S tv : Finset Pixel) (hbudget : (canvas f \ insert p S).card ≤ depth)
    (hstep : JunctionStep f p n) (hinv : Expanding f p S tv) :
    ∃ tv', visitNeighbor recurse n tv = some tv' ∧ Expanding f p S tv' ∧ tv ⊆ tv' ∧ n ∈ tv' := by
  unfold visitNeighbor
  by_cases hn : n ∈ tv
  · exact ⟨tv, by simp [hn], hinv, Finset.Subset.refl tv, hn⟩
  · obtain ⟨h1, h2, h3⟩ := hinv
    have hcard : (canvas f \ insert n tv).card < depth := by
      have a := card_sdiff_insert_lt f n tv (junctionStep_mem_canvas f p n hstep) hn
      have b : (canvas f \ tv).card ≤ (canvas f \ insert p S).card :=
        Finset.card_le_card (Finset.sdiff_subset_sdiff (Finset.Subset.refl _) h1)
      omega
    obtain ⟨tv', e, g1, g2, g3⟩ := hrec n tv hcard
    have hsub : tv ⊆ tv' := (Finset.subset_insert n tv).trans g1
    refine ⟨tv', by simp [hn, e], ⟨h1.trans hsub, ?_, ?_⟩, hsub, g1 (Finset.mem_insert_self n tv)⟩
    · intro q hq
      rcases g2 q hq with hq1 | hq1
      · exact h2 q hq1
      · exact Or.inr (Relation.ReflTransGen.trans (Relation.ReflTransGen.single hstep) hq1)
    · intro x hx hxS y hy
      by_cases hxt : x ∈ tv
      · exact hsub (h3 x hxt hxS y hy)
      · exact g3 x hx hxt y hy

theorem expandTriple_spec (f : PixelFrame)
    (recurse : Pixel → Finset Pixel → Option (Finset Pixel)) (depth : Nat)
    (hrec : ∀ n tv, (canvas f \ insert n tv).card < depth →
      ∃ tv', recurse n tv = some tv' ∧ Expanded f n tv tv')
    (p : Pixel) (S tv : Finset Pixel) (hbudget : (canvas f \ insert p S).card ≤ depth)
    (i : Nat) (hi : i ∈ [0, 2, 4, 6]) (hinv : Expanding f p S tv) :
    ∃ tv', expandTriple recurse f p i tv = some tv' ∧ Expanding f p S tv' ∧ tv ⊆ tv' ∧
      ∀ y, isOnMargin f p = false → data f (neighbor p i) = some BondValue →
        data f (neighbor p ((i + 1) % 8)) = some BondValue →
        data f (neighbor p ((i + 2) % 8)) = some BondValue →
        (y = neighbor p i ∨ y = neighbor p ((i + 1) % 8) ∨ y = neighbor p ((i + 2) % 8)) →
        y ∈ tv' := by
  unfold expandTriple PixelFrame.NumberOfNeighbors
  by_cases hc : isOnMargin f p = false ∧ data f (neighbor p i) = some BondValue ∧
      data f (neighbor p ((i + 1) % 8)) = some BondValue ∧
      data f (neighbor p ((i + 2) % 8)) = some BondValue
  · obtain ⟨c0, c1, c2, c3⟩ := hc
    have s1 : JunctionStep f p (neighbor p i) := ⟨c0, i, hi, c1, c2, c3, Or.inl rfl⟩
    have s2 : JunctionStep f p (neighbor p ((i + 1) % 8)) :=
      ⟨c0, i, hi, c1, c2, c3, Or.inr (Or.inl rfl)⟩
    have s3 : JunctionStep f p (neighbor p ((i + 2) % 8)) :=
      ⟨c0, i, hi, c1, c2, c3, Or.inr (Or.inr rfl)⟩
    obtain ⟨tv1, e1, inv1, sub1, m1⟩ := visitNeighbor_spec f recurse depth hrec p _ S tv hbudget s1 hinv
    obtain ⟨tv2, e2, inv2, sub2, m2⟩ := visitNeighbor_spec f recurse depth hrec p _ S tv1 hbudget s2 inv1
    obtain ⟨tv3, e3, inv3, sub3, m3⟩ := visitNeighbor_spec f recurse depth hrec p _ S tv2 hbudget s3 inv2
    refine ⟨tv3, ?_, inv3, sub1.trans (sub2.trans sub3), ?_⟩
    · simp [c0, c1, c2, c3, e1, e2, e3]
    · rintro y - - - - (rfl | rfl | rfl)
      · exact sub3 (sub2 m1)
      · exact sub3 m2
      · exact m3
  · refine ⟨tv, ?_, hinv, Finset.Subset.refl tv, ?_⟩
    · have : (!isOnMargin f p && data f (neighbor p i) == some BondValue
          && data f (neighbor p ((i + 1) % 8)) == some BondValue
          && data f (neighbor p ((i + 2) % 8)) == some BondValue) = false := by
        rw [Bool.eq_false_iff]
        intro h
        apply hc
        simpa [and_assoc] using h
      simp only [this, Bool.false_eq_true, if_false]
    · intro y c0 c1 c2 c3 _
      exact absurd ⟨c0, c1, c2, c3⟩ hc

/-- A call of `addToThickVertex` whose depth budget exceeds the number of canvas pixels still
outside the set returns, and has then expanded the pixel completely. -/
theorem addToThickVertexDepth_spec (f : PixelFrame) :
    ∀ (depth : Nat) (p : Pixel) (S : Finset Pixel), (canvas f \ insert p S).card < depth →
      ∃ S', addToThickVertexDepth f depth p S = some S' ∧ Expanded f p S S' := by
  intro depth
  induction depth with
  | zero =>
    intro p S h
    omega
  | succ depth ih =>
    intro p S hb
    have hbudget : (canvas f \ insert p S).card ≤ depth := by omega
    have inv0 : Expanding f p S (insert p S) := by
      refine ⟨Finset.Subset.refl _, ?_, ?_⟩
      · intro q hq
        rcases Finset.mem_insert.mp hq with rfl | hq
        · exact Or.inr Relation.ReflTransGen.refl
        · exact Or.inl hq
      · intro x hx hxS
        exact absurd hx hxS
    obtain ⟨t0, e0, inv1, sub0, m0⟩ :=
      expandTriple_spec f _ depth ih p S _ hbudget 0 (by decide) inv0
    obtain ⟨t2, e2, inv2, sub2, m2⟩ :=
      expandTriple_spec f _ depth ih p S t0 hbudget 2 (by decide) inv1
    obtain ⟨t4, e4, inv4, sub4, m4⟩ :=
      expandTriple_spec f _ depth ih p S t2 hbudget 4 (by decide) inv2
    obtain ⟨t6, e6, inv6, sub6, m6⟩ :=
      expandTriple_spec f _ depth ih p S t4 hbudget 6 (by decide) inv4
    refine ⟨t6, ?_, inv6.1, inv6.2.1, ?_⟩
    · simp only [addToThickVertexDepth, List.foldl_cons, List.foldl_nil, Option.some_bind, e0,
        e2, e4, e6]
    · intro x hx hxS y hy
      by_cases hxp : x = p
      · subst hxp
        obtain ⟨c0, i, hi, c1, c2, c3, hq⟩ := hy
        simp only [List.mem_cons, List.mem_singleton, List.not_mem_nil, or_false] at hi
        rcases hi with rfl | rfl | rfl | rfl
        · exact sub6 (sub4 (sub2 (m0 y c0 c1 c2 c3 hq)))
        · exact sub6 (sub4 (m2 y c0 c1 c2 c3 hq))
        · exact sub6 (m4 y c0 c1 c2 c3 hq)
        · exact m6 y c0 c1 c2 c3 hq
      · refine inv6.2.2 x hx ?_ y hy
        intro h
        rcases Finset.mem_insert.mp h with h | h
        · exact hxp h
        · exact hxS h

/-- The budget of the entry point is never used up: `addToThickVertex` returns for every
frame, pixel and set, having expanded the pixel completely. -/
theorem addToThickVertex_total (f : PixelFrame) (p : Pixel) (S : Finset Pixel) :
    ∃ S', addToThickVertex f p S = some S' ∧ Expanded f p S S' := by
  unfold addToThickVertex
  apply addToThickVertexDepth_spec
  have h1 : (canvas f \ insert p S).card ≤ (canvas f).card :=
    Finset.card_le_card Finset.sdiff_subset
  have h2 := card_canvas_le f
  omega

/-! ### The depth budget does not influence the result -/

theorem visitNeighbor_mono (r r' : Pixel → Finset Pixel → Option (Finset Pixel))
    (h : ∀ n tv R, r n tv = some R → r' n tv = some R) (n : Pixel) (tv R : Finset Pixel)
    (hv : visitNeighbor r n tv = some R) : visitNeighbor r' n tv = some R := by
  unfold visitNeighbor at hv ⊢
  by_cases hn : n ∈ tv
  · simpa [hn] using hv
  · simp only [hn, if_false] at hv ⊢
    exact h n tv R hv

theorem expandTriple_mono (r r' : Pixel → Finset Pixel → Option (Finset Pixel))
    (h : ∀ n tv R, r n tv = some R → r' n tv = some R) (f : PixelFrame) (p : Pixel) (i : Nat)
    (tv R : Finset Pixel) (hv : expandTriple r f p i tv = some R) :
    expandTriple r' f p i tv = some R := by
  unfold expandTriple at hv ⊢
  simp only at hv ⊢
  split_ifs at hv ⊢ with hc
  · simp only [Option.bind_eq_some] at hv ⊢
    obtain ⟨t1, e1, t2, e2, e3⟩ := hv
    exact ⟨t1, visitNeighbor_mono r r' h _ _ _ e1, t2, visitNeighbor_mono r r' h _ _ _ e2,
      visitNeighbor_mono r r' h _ _ _ e3⟩
  · exact hv

theorem addToThickVertexDepth_succ (f : PixelFrame) :
    ∀ (depth : Nat) (p : Pixel) (S R : Finset Pixel),
      addToThickVertexDepth f depth p S = some R →
      addToThickVertexDepth f (depth + 1) p S = some R := by
  intro depth
  induction depth with
  | zero =>
    intro p S R h
    simp [addToThickVertexDepth] at h
  | succ depth ih =>
    intro p S R h
    simp only [addToThickVertexDepth, List.foldl_cons, List.foldl_nil, Option.some_bind,
      Option.bind_eq_some] at h ⊢
    obtain ⟨t4, ⟨t2, ⟨t0, e0, e2⟩, e4⟩, e6⟩ := h
    have m := expandTriple_mono (addToThickVertexDepth f depth)
      (addToThickVertexDepth f (depth + 1)) (fun n tv R h => ih n tv R h) f p
    exact ⟨t4, ⟨t2, ⟨t0, m _ _ _ e0, m _ _ _ e2⟩, m _ _ _ e4⟩, m _ _ _ e6⟩

theorem addToThickVertexDepth_le (f : PixelFrame) (d d' : Nat) (hle : d ≤ d') (p : Pixel)
    (S R : Finset Pixel) (h : addToThickVertexDepth f d p S = some R) :
    addToThickVertexDepth f d' p S = some R := by
  induction hle with
  | refl => exact h
  | step _ ih => exact addToThickVertexDepth_succ f _ p S R ih

/-- Every depth budget above the number of canvas pixels gives the result of the entry
point. -/
theorem addToThickVertexDepth_eq (f : PixelFrame) (depth : Nat) (hd : f.width * f.height < depth)
    (p : Pixel) (S : Finset Pixel) :
    addToThickVertexDepth f depth p S = addToThickVertex f p S := by
  obtain ⟨R, hR, -⟩ := addToThickVertex_total f p S
  rw [hR]
  unfold addToThickVertex at hR
  exact addToThickVertexDepth_le f _ depth (by omega) p S R hR

/-- Called with the empty set, `addToThickVertex` returns exactly the junction of the seed. -/
theorem addToThickVertex_empty (f : PixelFrame) (p : Pixel) :
    ∃ S, addToThickVertex f p ∅ = some S ∧ ∀ q, q ∈ S ↔ InJunction f p q := by
  obtain ⟨S, hS, h1, h2, h3⟩ := addToThickVertex_total f p ∅
  refine ⟨S, hS, fun q => ⟨fun hq => ?_, fun hq => ?_⟩⟩
  · rcases h2 q hq with h | h
    · exact absurd h (Finset.not_mem_empty q)
    · exact h
  · induction hq with
    | refl => exact h1 (Finset.mem_insert_self p ∅)
    | tail _ hstep ih => exact h3 _ ih (Finset.not_mem_empty _) _ hstep

/-- C3: called with an empty set, `addToThickVertex` returns, and the set it leaves is exactly
the complete junction of the seed: the pixels reachable from the seed by zero or more steps
`p -> q` with `p` not on the canvas margin and `q` one of three consecutive all-Bond
neighbours `(i, i+1, i+2 mod 8)` of `p`, `i` in `{0,2,4,6}`. -/
theorem resolved_cluster_is_complete_junction (f : PixelFrame) (seed : Pixel) :
    ∃ S, addToThickVertex f seed ∅ = some S ∧
      ∀ q, q ∈ S ↔ Relation.ReflTransGen (JunctionStep f) seed q :=
  addToThickVertex_empty f seed

theorem expandTriple_of_margin (f : PixelFrame)
    (recurse : Pixel → Finset Pixel → Option (Finset Pixel)) (p : Pixel) (i : Nat)
    (tv : Finset Pixel) (h : isOnMargin f p = true) :
    expandTriple recurse f p i tv = some tv := by
  unfold expandTriple
  simp [h]

theorem addToThickVertex_of_margin (f : PixelFrame) (p : Pixel) (S : Finset Pixel)
    (h : isOnMargin f p = true) : addToThickVertex f p S = some (insert p S) := by
  unfold addToThickVertex
  simp only [addToThickVertexDepth, List.foldl_cons, List.foldl_nil, Option.some_bind,
    expandTriple_of_margin f _ p _ _ h]

/-- C8: margin pixels never expand: for every raster, every seed on the canvas margin and
every input set, `addToThickVertex` returns the input set with the seed inserted, whatever
the labels of the neighbours of the seed are. -/
theorem margin_seed_adds_only_itself (f : PixelFrame) (seed : Pixel) (S : Finset Pixel)
    (hmargin : isOnMargin f seed = true) :
    addToThickVertex f seed S = some (insert seed S) :=
  addToThickVertex_of_margin f seed S hmargin

theorem margin_seed_adds_only_itself_witness :
    isOnMargin bondFrame ⟨0, 1⟩ = true ∧
      addToThickVertex bondFrame ⟨0, 1⟩ {⟨2, 2⟩} = some (insert ⟨0, 1⟩ {⟨2, 2⟩}) :=
  ⟨by decide, margin_seed_adds_only_itself bondFrame ⟨0, 1⟩ {⟨2, 2⟩} (by decide)⟩

theorem neighbor_neighbor (p : Pixel) (a b c : Nat)
    (h1 : (PixelFrame.direction a).1 + (PixelFrame.direction b).1 = (PixelFrame.direction c).1)
    (h2 : (PixelFrame.direction a).2 + (PixelFrame.direction b).2 = (PixelFrame.direction c).2) :
    neighbor (neighbor p a) b = neighbor p c := by
  unfold neighbor
  simp only [Pixel.mk.injEq]
  constructor <;> omega

theorem neighbor_back (p : Pixel) (a b : Nat)
    (h1 : (PixelFrame.direction a).1 + (PixelFrame.direction b).1 = 0)
    (h2 : (PixelFrame.direction a).2 + (PixelFrame.direction b).2 = 0) :
    neighbor (neighbor p a) b = p := by
  cases p with
  | mk r c =>
    unfold neighbor
    simp only [Pixel.mk.injEq]
    constructor <;> omega

/-- An expansion step into a pixel that is not on the margin can be taken back when the
pixel it came from is Bond-labelled: the two pixels lie in a common all-Bond triple of
either. -/
theorem junctionStep_symm (f : PixelFrame) (p q : Pixel) (h : JunctionStep f p q)
    (hp : data f p = some BondValue) (hq : isOnMargin f q = false) : JunctionStep f q p := by
  obtain ⟨-, i, hi, c1, c2, c3, hpos⟩ := h
  simp only [List.mem_cons, List.mem_singleton, List.not_mem_nil, or_false] at hi
  rcases hi with rfl | rfl | rfl | rfl <;> rcases hpos with rfl | rfl | rfl
  · refine ⟨hq, 2, by decide, ?_, ?_, ?_, ?_⟩
    · show data f (neighbor (neighbor p 0) 2) = some BondValue
      rw [neighbor_neighbor p 0 2 1 rfl rfl]
      exact c2
    · show data f (neighbor (neighbor p 0) 3) = some BondValue
      rw [neighbor_neighbor p 0 3 2 rfl rfl]
      exact c3
    · show data f (neighbor (neighbor p 0) 4) = some BondValue
      rw [neighbor_back p 0 4 rfl rfl]
      exact hp
    · exact (fun h => Or.inr (Or.inr h)) (neighbor_back p 0 4 rfl rfl).symm
  · refine ⟨hq, 4, by decide, ?_, ?_, ?_, ?_⟩
    · show data f (neighbor (neighbor p 1) 4) = some BondValue
      rw [neighbor_neighbor p 1 4 2 rfl rfl]
      exact c3
    · show data f (neighbor (neighbor p 1) 5) = some BondValue
      rw [neighbor_back p 1 5 rfl rfl]
      exact hp
    · show data f (neighbor (neighbor p 1) 6) = some BondValue
      rw [neighbor_neighbor p 1 6 0 rfl rfl]
      exact c1
    · exact (fun h => Or.inr (Or.inl h)) (neighbor_back p 1 5 rfl rfl).symm
  · refine ⟨hq, 6, by decide, ?_, ?_, ?_, ?_⟩
    · show data f (neighbor (neighbor p 2) 6) = some BondValue
      rw [neighbor_back p 2 6 rfl rfl]
      exact hp
    · show data f (neighbor (neighbor p 2) 7) = some BondValue
      rw [neighbor_neighbor p 2 7 0 rfl rfl]
      exact c1
    · show data f (neighbor (neighbor p 2) 0) = some BondValue
      rw [neighbor_neighbor p 2 0 1 rfl rfl]
      exact c2
    · exact (Or.inl) (neighbor_back p 2 6 rfl rfl).symm
  · refine ⟨hq, 4, by decide, ?_, ?_, ?_, ?_⟩
    · show data f (neighbor (neighbor p 2) 4) = some BondValue
      rw [neighbor_neighbor p 2 4 3 rfl rfl]
      exact c2
    · show data f (neighbor (neighbor p 2) 5) = some BondValue
      rw [neighbor_neighbor p 2 5 4 rfl rfl]
      exact c3
    · show data f (neighbor (neighbor p 2) 6) = some BondValue
      rw [neighbor_back p 2 6 rfl rfl]
      exact hp
    · exact (fun h => Or.inr (Or.inr h)) (neighbor_back p 2 6 rfl rfl).symm
  · refine ⟨hq, 6, by decide, ?_, ?_, ?_, ?_⟩
    · show data f (neighbor (neighbor p 3) 6) = some BondValue
      rw [neighbor_neighbor p 3 6 4 rfl rfl]
      exact c3
    · show data f (neighbor (neighbor p 3) 7) = some BondValue
      rw [neighbor_back p 3 7 rfl rfl]
      exact hp
    · show data f (neighbor (neighbor p 3) 0) = some BondValue
      rw [neighbor_neighbor p 3 0 2 rfl rfl]
      exact c1
    · exact (fun h => Or.inr (Or.inl h)) (neighbor_back p 3 7 rfl rfl).symm
  · refine ⟨hq, 0, by decide, ?_, ?_, ?_, ?_⟩
    · show data f (neighbor (neighbor p 4) 0) = some BondValue
      rw [neighbor_back p 4 0 rfl rfl]
      exact hp
    · show data f (neighbor (neighbor p 4) 1) = some BondValue
      rw [neighbor_neighbor p 4 1 2 rfl rfl]
      exact c1
    · show data f (neighbor (neighbor p 4) 2) = some BondValue
      rw [neighbor_neighbor p 4 2 3 rfl rfl]
      exact c2
    · exact (Or.inl) (neighbor_back p 4 0 rfl rfl).symm
  · refine ⟨hq, 6, by decide, ?_, ?_, ?_, ?_⟩
    · show data f (neighbor (neighbor p 4) 6) = some BondValue
      rw [neighbor_neighbor p 4 6 5 rfl rfl]
      exact c2
    · show data f (neighbor (neighbor p 4) 7) = some BondValue
      rw [neighbor_neighbor p 4 7 6 rfl rfl]
      exact c3
    · show data f (neighbor (neighbor p 4) 0) = some BondValue
      rw [neighbor_back p 4 0 rfl rfl]
      exact hp
    · exact (fun h => Or.inr (Or.inr h)) (neighbor_back p 4 0 rfl rfl).symm
  · refine ⟨hq, 0, by decide, ?_, ?_, ?_, ?_⟩
    · show data f (neighbor (neighbor p 5) 0) = some BondValue
      rw [neighbor_neighbor p 5 0 6 rfl rfl]
      exact c3
    · show data f (neighbor (neighbor p 5) 1) = some BondValue
      rw [neighbor_back p 5 1 rfl rfl]
      exact hp
    · show data f (neighbor (neighbor p 5) 2) = some BondValue
      rw [neighbor_neighbor p 5 2 4 rfl rfl]
      exact c1
    · exact (fun h => Or.inr (Or.inl h)) (neighbor_back p 5 1 rfl rfl).symm
  · refine ⟨hq, 2, by decide, ?_, ?_, ?_, ?_⟩
    · show data f (neighbor (neighbor p 6) 2) = some BondValue
      rw [neighbor_back p 6 2 rfl rfl]
      exact hp
    · show data f (neighbor (neighbor p 6) 3) = some BondValue
      rw [neighbor_neighbor p 6 3 4 rfl rfl]
      exact c1
    · show data f (neighbor (neighbor p 6) 4) = some BondValue
      rw [neighbor_neighbor p 6 4 5 rfl rfl]
      exact c2
    · exact (Or.inl) (neighbor_back p 6 2 rfl rfl).symm
  · refine ⟨hq, 0, by decide, ?_, ?_, ?_, ?_⟩
    · show data f (neighbor (neighbor p 6) 0) = some BondValue
      rw [neighbor_neighbor p 6 0 7 rfl rfl]
      exact c2
    · show data f (neighbor (neighbor p 6) 1) = some BondValue
      rw [neighbor_neighbor p 6 1 0 rfl rfl]
      exact c3
    · show data f (neighbor (neighbor p 6) 2) = some BondValue
      rw [neighbor_back p 6 2 rfl rfl]
      exact hp
    · exact (fun h => Or.inr (Or.inr h)) (neighbor_back p 6 2 rfl rfl).symm
  · refine ⟨hq, 2, by decide, ?_, ?_, ?_, ?_⟩
    · show data f (neighbor (neighbor p 7) 2) = some BondValue
      rw [neighbor_neighbor p 7 2 0 rfl rfl]
      exact c3
    · show data f (neighbor (neighbor p 7) 3) = some BondValue
      rw [neighbor_back p 7 3 rfl rfl]
      exact hp
    · show data f (neighbor (neighbor p 7) 4) = some BondValue
      rw [neighbor_neighbor p 7 4 6 rfl rfl]
      exact c1
    · exact (fun h => Or.inr (Or.inl h)) (neighbor_back p 7 3 rfl rfl).symm
  · refine ⟨hq, 4, by decide, ?_, ?_, ?_, ?_⟩
    · show data f (neighbor (neighbor p 0) 4) = some BondValue
      rw [neighbor_back p 0 4 rfl rfl]
      exact hp
    · show data f (neighbor (neighbor p 0) 5) = some BondValue
      rw [neighbor_neighbor p 0 5 6 rfl rfl]
      exact c1
    · show data f (neighbor (neighbor p 0) 6) = some BondValue
      rw [neighbor_neighbor p 0 6 7 rfl rfl]
      exact c2
    · exact (Or.inl) (neighbor_back p 0 4 rfl rfl).symm

theorem data_of_junctionStep (f : PixelFrame) (p q : Pixel) (h : JunctionStep f p q) :
    data f q = some BondValue := by
  obtain ⟨-, i, -, c1, c2, c3, hpos⟩ := h
  rcases hpos with rfl | rfl | rfl
  · exact c1
  · exact c2
  · exact c3

theorem data_of_inJunction (f : PixelFrame) (p q : Pixel) (h : InJunction f p q)
    (hp : data f p = some BondValue) : data f q = some BondValue := by
  induction h with
  | refl => exact hp
  | tail _ hstep _ => exact data_of_junctionStep f _ _ hstep

/-- From a junction member that is not on the margin the way back to a Bond-labelled seed
exists. -/
theorem inJunction_symm (f : PixelFrame) (p q : Pixel) (h : InJunction f p q)
    (hp : data f p = some BondValue) (hq : isOnMargin f q = false) : InJunction f q p := by
  induction h with
  | refl => exact Relation.ReflTransGen.refl
  | @tail b c hpb hstep ih =>
    have hb : data f b = some BondValue := data_of_inJunction f p b hpb hp
    have back : JunctionStep f c b := junctionStep_symm f b c hstep hb hq
    exact Relation.ReflTransGen.head back (ih hstep.1)

/-- C7 as stated fails, in two ways. In `bondFrame` the cluster resolved from the centre
`(1,1)` contains the corner `(0,0)`, but the corner is on the margin and resolves to itself
alone. In `islandFrame` the cluster resolved from the region pixel `(1,1)` contains `(2,2)`,
but the cluster resolved from `(2,2)` does not contain `(1,1)`, which is not Bond. -/
theorem cluster_differs_from_member :
    (∃ S T, addToThickVertex bondFrame ⟨1, 1⟩ ∅ = some S ∧ (⟨0, 0⟩ : Pixel) ∈ S ∧
        addToThickVertex bondFrame ⟨0, 0⟩ ∅ = some T ∧ T ≠ S) ∧
      (∃ S T, addToThickVertex islandFrame ⟨1, 1⟩ ∅ = some S ∧ (⟨2, 2⟩ : Pixel) ∈ S ∧
        addToThickVertex islandFrame ⟨2, 2⟩ ∅ = some T ∧ T ≠ S) := by
  constructor
  · refine ⟨(addToThickVertex bondFrame ⟨1, 1⟩ ∅).get (by decide),
      (addToThickVertex bondFrame ⟨0, 0⟩ ∅).get (by decide), by simp, by decide, by simp, ?_⟩
    intro h
    have h1 : (⟨1, 1⟩ : Pixel) ∈ (addToThickVertex bondFrame ⟨1, 1⟩ ∅).get (by decide) := by
      decide
    have h2 : (⟨1, 1⟩ : Pixel) ∉ (addToThickVertex bondFrame ⟨0, 0⟩ ∅).get (by decide) := by
      decide
    rw [← h] at h1
    exact h2 h1
  · refine ⟨(addToThickVertex islandFrame ⟨1, 1⟩ ∅).get (by decide),
      (addToThickVertex islandFrame ⟨2, 2⟩ ∅).get (by decide), by simp, by decide, by simp, ?_⟩
    intro h
    have h1 : (⟨1, 1⟩ : Pixel) ∈ (addToThickVertex islandFrame ⟨1, 1⟩ ∅).get (by decide) := by
      decide
    have h2 : (⟨1, 1⟩ : Pixel) ∉ (addToThickVertex islandFrame ⟨2, 2⟩ ∅).get (by decide) := by
      decide
    rw [← h] at h1
    exact h2 h1

/-- C7 (amended): for every raster, every Bond-labelled seed `p` and every pixel `q` of the
cluster that `addToThickVertex` resolves from `p` (starting from an empty set), if `q` is not
on the canvas margin then resolving the cluster from `q` (again from an empty set) yields the
identical pixel set. -/
theorem cluster_same_from_inner_member (f : PixelFrame) (p q : Pixel) (S : Finset Pixel)
    (hp : data f p = some BondValue) (hS : addToThickVertex f p ∅ = some S) (hq : q ∈ S)
    (hinner : isOnMargin f q = false) :
    addToThickVertex f q ∅ = some S := by
  obtain ⟨S1, hS1, hmem1⟩ := addToThickVertex_empty f p
  obtain ⟨T, hT, hmemT⟩ := addToThickVertex_empty f q
  rw [hS] at hS1
  cases hS1
  have hpq : InJunction f p q := (hmem1 q).mp hq
  have hqp : InJunction f q p := inJunction_symm f p q hpq hp hinner
  rw [hT]
  congr 1
  ext x
  rw [hmemT x, hmem1 x]
  exact ⟨fun h => Relation.ReflTransGen.trans hpq h, fun h => Relation.ReflTransGen.trans hqp h⟩

theorem cluster_same_from_inner_member_witness :
    ∃ S, data islandFrame ⟨2, 2⟩ = some BondValue ∧
      addToThickVertex islandFrame ⟨2, 2⟩ ∅ = some S ∧ (⟨1, 2⟩ : Pixel) ∈ S ∧
      isOnMargin islandFrame ⟨1, 2⟩ = false ∧ addToThickVertex islandFrame ⟨1, 2⟩ ∅ = some S :=
  ⟨(addToThickVertex islandFrame ⟨2, 2⟩ ∅).get (by decide), by decide, by simp, by decide,
    by decide,
    cluster_same_from_inner_member islandFrame ⟨2, 2⟩ ⟨1, 2⟩ _ (by decide) (by simp) (by decide)
      (by decide)⟩

end Pixel
end TissueMiner

namespace TissueMiner
namespace TissueState

theorem contains_iff_mem (t : TissueState) (id : CellIndex) :
    t.contains id = true ↔ id ∈ t._cells := by
  unfold contains
  exact AList.lookup_isSome

/-- C10: `newCell` creates a cell at most once per label. If `contains(id)` holds, it returns
`NULL` and leaves the state, hence the registry, unchanged. Otherwise it returns a new cell
for `id`; afterwards `contains(id)` holds, `cell(id)` is the returned cell, `numberOfCells`
has grown by exactly one and the entry of every other id is unchanged. -/
theorem newCell_creates_at_most_once (t : TissueState) (id : CellIndex) :
    (t.contains id = true → t.newCell id = (none, t)) ∧
      (t.contains id = false →
        ∃ c, (t.newCell id).1 = some c ∧ c.id = id ∧
          (t.newCell id).2.contains id = true ∧
          (t.newCell id).2.cell id = Except.ok (some c) ∧
          (t.newCell id).2.numberOfCells = t.numberOfCells + 1 ∧
          ∀ other, other ≠ id →
            (t.newCell id).2._cells.lookup other = t._cells.lookup other) := by
  constructor
  · intro h
    simp [newCell, h]
  · intro h
    have hnot : id ∉ t._cells := by
      rw [← contains_iff_mem, h]
      simp
    have hnew : t.newCell id = (some (Cell.mk id),
        { t with _cells := t._cells.insert id (Cell.mk id) }) := by
      unfold newCell
      rw [h]
      rfl
    rw [hnew]
    refine ⟨Cell.mk id, rfl, rfl, ?_, ?_, ?_, ?_⟩
    · show (AList.lookup id (t._cells.insert id (Cell.mk id))).isSome = true
      rw [AList.lookup_insert]
      rfl
    · show (match AList.lookup id (t._cells.insert id (Cell.mk id)) with
        | some c => Except.ok (some c)
        | none => Except.error MapError.out_of_range) = Except.ok (some (Cell.mk id))
      rw [AList.lookup_insert]
    · show (t._cells.insert id (Cell.mk id)).entries.length = t._cells.entries.length + 1
      rw [AList.insert_entries_of_neg hnot]
      rfl
    · intro other hne
      exact AList.lookup_insert_ne hne

theorem newCell_creates_at_most_once_witness :
    twoCellState.contains 5 = true ∧ twoCellState.newCell 5 = (none, twoCellState) ∧
      twoCellState.contains 4 = false ∧ (twoCellState.newCell 4).1 = some (Cell.mk 4) :=
  ⟨by decide, (newCell_creates_at_most_once twoCellState 5).1 (by decide), by decide,
    by decide⟩

end TissueState
end TissueMiner

namespace TissueMiner
namespace TissueState

/-- C11: lookup of a cell by label. `cellCheck(id)` returns `NULL` exactly when `contains(id)`
is false and otherwise returns what `cell(id)` returns; `cell(id)` fails with `out_of_range`
exactly when `contains(id)` is false, and returns a cell (not `NULL`) otherwise. Both are
`const` methods: they are functions of the state and yield no new state. -/
theorem lookup_by_label (t : TissueState) (id : CellIndex) :
    (t.cellCheck id = Except.ok none ↔ t.contains id = false) ∧
      (t.contains id = true → t.cellCheck id = t.cell id) ∧
      (t.cell id = Except.error MapError.out_of_range ↔ t.contains id = false) ∧
      (t.contains id = true → ∃ c, t.cell id = Except.ok (some c)) := by
  have hcell : t.contains id = true → ∃ c, t.cell id = Except.ok (some c) := by
    intro h
    unfold contains at h
    cases hl : t._cells.lookup id with
    | none => simp [hl] at h
    | some c => exact ⟨c, by simp [cell, hl]⟩
  have hmiss : t.contains id = false → t.cell id = Except.error MapError.out_of_range := by
    intro h
    unfold contains at h
    cases hl : t._cells.lookup id with
    | none => simp [cell, hl]
    | some c => simp [hl] at h
  refine ⟨⟨fun h => ?_, fun h => ?_⟩, fun h => ?_, ⟨fun h => ?_, hmiss⟩, hcell⟩
  · by_contra hc
    simp only [Bool.not_eq_false] at hc
    obtain ⟨c, e⟩ := hcell hc
    simp [cellCheck, hc, e] at h
  · simp [cellCheck, h]
  · simp [cellCheck, h]
  · by_contra hc
    simp only [Bool.not_eq_false] at hc
    obtain ⟨c, e⟩ := hcell hc
    rw [e] at h
    cases h

theorem lookup_by_label_witness :
    twoCellState.cellCheck 4 = Except.ok none ∧ twoCellState.contains 4 = false ∧
      twoCellState.cellCheck 5 = Except.ok (some (Cell.mk 5)) ∧
      twoCellState.cellCheck 5 = twoCellState.cell 5 :=
  ⟨rfl, by decide, rfl, (lookup_by_label twoCellState 5).2.1 (by decide)⟩

end TissueState

/-- C12: the three reserved label values are BondValue 0x00FFFFFF, OutsideCanvasValue
0xFF000000 and DividingCellValue 0x000000FF and are pairwise distinct, so every raw pixel
value decodes to exactly one of Bond, Outside, DividingMarker, Cell (each kind is decoded
exactly for its own value, whatever the order of the comparisons); and OutsideCanvasValue
differs from every value representable in the low 24 bits. -/
theorem reserved_labels_distinct :
    (Pixel.BondValue = 0x00FFFFFF ∧ Pixel.OutsideCanvasValue = 0xFF000000 ∧
        Pixel.DividingCellValue = 0x000000FF) ∧
      (Pixel.BondValue ≠ Pixel.OutsideCanvasValue ∧ Pixel.BondValue ≠ Pixel.DividingCellValue ∧
        Pixel.OutsideCanvasValue ≠ Pixel.DividingCellValue) ∧
      (∀ x : PixelValue,
        (decodeLabel x = Label.Bond ↔ x = Pixel.BondValue) ∧
        (decodeLabel x = Label.Outside ↔ x = Pixel.OutsideCanvasValue) ∧
        (decodeLabel x = Label.DividingMarker ↔ x = Pixel.DividingCellValue) ∧
        (decodeLabel x = Label.Cell x ↔
          x ≠ Pixel.BondValue ∧ x ≠ Pixel.OutsideCanvasValue ∧ x ≠ Pixel.DividingCellValue)) ∧
      (∀ x : PixelValue, x < 2 ^ 24 → x ≠ Pixel.OutsideCanvasValue) := by
  refine ⟨⟨rfl, rfl, rfl⟩, ⟨by decide, by decide, by decide⟩, ?_, ?_⟩
  · intro x
    unfold decodeLabel
    by_cases h1 : x = Pixel.BondValue
    · subst h1
      simp
      decide
    · by_cases h2 : x = Pixel.OutsideCanvasValue
      · subst h2
        simp
        decide
      · by_cases h3 : x = Pixel.DividingCellValue
        · subst h3
          simp
          decide
        · simp [h1, h2, h3]
  · intro x hx h
    rw [h] at hx
    exact absurd hx (by decide)

end TissueMiner

namespace TissueMiner
namespace Pixel

/-! ### What the resolver adds -/

theorem inJunction_eq_or_bond (f : PixelFrame) (p q : Pixel) (h : InJunction f p q) :
    q = p ∨ (isOnCanvas f q = true ∧ data f q = some BondValue) := by
  cases h with
  | refl => exact Or.inl rfl
  | tail _ hstep =>
    have hd := data_of_junctionStep f _ _ hstep
    exact Or.inr ⟨isOnCanvas_of_data f _ _ hd, hd⟩

/-- C16: for every raster, seed and initial set, `addToThickVertex` returns a set that
contains the initial set and the seed (inserted without any check of its label), and every
pixel it added other than the seed is on the canvas and Bond-labelled. -/
theorem added_pixels_are_bond (f : PixelFrame) (seed : Pixel) (S : Finset Pixel) :
    ∃ S', addToThickVertex f seed S = some S' ∧ S ⊆ S' ∧ seed ∈ S' ∧
      ∀ q, q ∈ S' → q ∉ S → q ≠ seed →
        isOnCanvas f q = true ∧ data f q = some BondValue := by
  obtain ⟨S', hS', h1, h2, -⟩ := addToThickVertex_total f seed S
  refine ⟨S', hS', (Finset.subset_insert seed S).trans h1, h1 (Finset.mem_insert_self seed S),
    fun q hq hqS hne => ?_⟩
  rcases h2 q hq with h | h
  · exact absurd h hqS
  · rcases inJunction_eq_or_bond f seed q h with h | h
    · exact absurd h hne
    · exact h

end Pixel
end TissueMiner

namespace TissueMiner
namespace Pixel

theorem added_pixels_are_bond_witness :
    data islandFrame ⟨1, 1⟩ = some 1 ∧
      ∃ S', addToThickVertex islandFrame ⟨1, 1⟩ ∅ = some S' ∧ ∅ ⊆ S' ∧ (⟨1, 1⟩ : Pixel) ∈ S' ∧
        ∀ q, q ∈ S' → q ∉ (∅ : Finset Pixel) → q ≠ ⟨1, 1⟩ →
          isOnCanvas islandFrame q = true ∧ data islandFrame q = some BondValue :=
  ⟨by decide, added_pixels_are_bond islandFrame ⟨1, 1⟩ ∅⟩

/-! ### The number of recursive calls -/

theorem map_fst_bind {α β : Type} (x : Option (α × β)) (g : α × β → Option (α × β))
    (g' : α → Option α) (h : ∀ a, (g a).map Prod.fst = g' a.1) :
    (x.bind g).map Prod.fst = (x.map Prod.fst).bind g' := by
  cases x with
  | none => rfl
  | some a => simp [h]

theorem visitNeighborCalls_fst (rc : Pixel → Finset Pixel → Option (Finset Pixel × Nat))
    (r : Pixel → Finset Pixel → Option (Finset Pixel))
    (h : ∀ n tv, (rc n tv).map Prod.fst = r n tv) (n : Pixel) (acc : Finset Pixel × Nat) :
    (visitNeighborCalls rc n acc).map Prod.fst = visitNeighbor r n acc.1 := by
  unfold visitNeighborCalls visitNeighbor
  by_cases hn : n ∈ acc.1
  · simp [hn]
  · simp only [hn, if_false, Option.map_map, ← h n acc.1]
    rfl

theorem expandTripleCalls_fst (rc : Pixel → Finset Pixel → Option (Finset Pixel × Nat))
    (r : Pixel → Finset Pixel → Option (Finset Pixel))
    (h : ∀ n tv, (rc n tv).map Prod.fst = r n tv) (f : PixelFrame) (p : Pixel) (i : Nat)
    (acc : Finset Pixel × Nat) :
    (expandTripleCalls rc f p i acc).map Prod.fst = expandTriple r f p i acc.1 := by
  unfold expandTripleCalls expandTriple
  simp only
  split_ifs with hc
  · rw [map_fst_bind _ _ (fun tv1 =>
        (visitNeighbor r (neighbor p ((i + 1) % PixelFrame.NumberOfNeighbors)) tv1).bind fun tv2 =>
          visitNeighbor r (neighbor p ((i + 2) % PixelFrame.NumberOfNeighbors)) tv2),
      visitNeighborCalls_fst rc r h]
    intro a
    rw [map_fst_bind _ _ (fun tv2 =>
        visitNeighbor r (neighbor p ((i + 2) % PixelFrame.NumberOfNeighbors)) tv2),
      visitNeighborCalls_fst rc r h]
    intro b
    exact visitNeighborCalls_fst rc r h _ b
  · rfl

/-- The counting version computes the same set as `addToThickVertexDepth`. -/
theorem addToThickVertexCalls_fst (f : PixelFrame) :
    ∀ (depth : Nat) (p : Pixel) (S : Finset Pixel),
      (addToThickVertexCalls f depth p S).map Prod.fst = addToThickVertexDepth f depth p S := by
  intro depth
  induction depth with
  | zero =>
    intro p S
    rfl
  | succ depth ih =>
    intro p S
    have e := expandTripleCalls_fst (addToThickVertexCalls f depth)
      (addToThickVertexDepth f depth) ih f p
    simp only [addToThickVertexCalls, addToThickVertexDepth, List.foldl_cons, List.foldl_nil]
    rw [map_fst_bind _ _ (expandTriple (addToThickVertexDepth f depth) f p 6) (e 6),
      map_fst_bind _ _ (expandTriple (addToThickVertexDepth f depth) f p 4) (e 4),
      map_fst_bind _ _ (expandTriple (addToThickVertexDepth f depth) f p 2) (e 2),
      map_fst_bind _ _ (expandTriple (addToThickVertexDepth f depth) f p 0) (e 0)]
    rfl

theorem visitNeighborCalls_count (rc : Pixel → Finset Pixel → Option (Finset Pixel × Nat))
    (h : ∀ n tv tv' k, rc n tv = some (tv', k) → k + (insert n tv).card = tv'.card)
    (n : Pixel) (acc acc' : Finset Pixel × Nat) (base : Nat)
    (hv : visitNeighborCalls rc n acc = some acc') (hb : acc.2 + base = acc.1.card) :
    acc'.2 + base = acc'.1.card := by
  unfold visitNeighborCalls at hv
  by_cases hn : n ∈ acc.1
  · simp only [hn, if_true, Option.some.injEq] at hv
    rw [← hv]
    exact hb
  · simp only [hn, if_false, Option.map_eq_some'] at hv
    obtain ⟨⟨tv', k⟩, e, rfl⟩ := hv
    have := h n acc.1 tv' k e
    rw [Finset.card_insert_of_not_mem hn] at this
    simp only
    omega

theorem expandTripleCalls_count (rc : Pixel → Finset Pixel → Option (Finset Pixel × Nat))
    (h : ∀ n tv tv' k, rc n tv = some (tv', k) → k + (insert n tv).card = tv'.card)
    (f : PixelFrame) (p : Pixel) (i : Nat) (acc acc' : Finset Pixel × Nat) (base : Nat)
    (hv : expandTripleCalls rc f p i acc = some acc') (hb : acc.2 + base = acc.1.card) :
    acc'.2 + base = acc'.1.card := by
  unfold expandTripleCalls at hv
  simp only at hv
  split_ifs at hv with hc
  · simp only [Option.bind_eq_some] at hv
    obtain ⟨a1, e1, a2, e2, e3⟩ := hv
    have b1 := visitNeighborCalls_count rc h _ acc a1 base e1 hb
    have b2 := visitNeighborCalls_count rc h _ a1 a2 base e2 b1
    exact visitNeighborCalls_count rc h _ a2 acc' base e3 b2
  · simp only [Option.some.injEq] at hv
    rw [← hv]
    exact hb

/-- Every recursive call adds one new pixel: the number of calls is the number of pixels the
call added besides its own. -/
theorem addToThickVertexCalls_count (f : PixelFrame) :
    ∀ (depth : Nat) (p : Pixel) (S S' : Finset Pixel) (k : Nat),
      addToThickVertexCalls f depth p S = some (S', k) → k + (insert p S).card = S'.card := by
  intro depth
  induction depth with
  | zero =>
    intro p S S' k h
    simp [addToThickVertexCalls] at h
  | succ depth ih =>
    intro p S S' k h
    simp only [addToThickVertexCalls, List.foldl_cons, List.foldl_nil, Option.some_bind,
      Option.bind_eq_some] at h
    obtain ⟨a4, ⟨a2, ⟨a0, e0, e2⟩, e4⟩, e6⟩ := h
    have c := expandTripleCalls_count (addToThickVertexCalls f depth) ih f p
    have b0 := c 0 _ a0 (insert p S).card e0 (by simp)
    have b2 := c 2 a0 a2 (insert p S).card e2 b0
    have b4 := c 4 a2 a4 (insert p S).card e4 b2
    exact c 6 a4 (S', k) (insert p S).card e6 b4

end Pixel
end TissueMiner

namespace TissueMiner
namespace Pixel

theorem inJunction_mem_canvas (f : PixelFrame) (p q : Pixel) (h : InJunction f p q) :
    q = p ∨ q ∈ canvas f := by
  cases h with
  | refl => exact Or.inl rfl
  | tail _ hstep => exact Or.inr (junctionStep_mem_canvas f _ _ hstep)

theorem card_le_of_expanded (f : PixelFrame) (p : Pixel) (S S' : Finset Pixel)
    (h : Expanded f p S S') : S'.card ≤ (insert p S).card + (canvas f \ insert p S).card := by
  have hsub : S' ⊆ insert p S ∪ (canvas f \ insert p S) := by
    intro q hq
    by_cases hq0 : q ∈ insert p S
    · exact Finset.mem_union_left _ hq0
    · refine Finset.mem_union_right _ (Finset.mem_sdiff.mpr ⟨?_, hq0⟩)
      rcases h.2.1 q hq with hqS | hqJ
      · exact absurd (Finset.mem_insert_of_mem hqS) hq0
      · rcases inJunction_mem_canvas f p q hqJ with rfl | hc
        · exact absurd (Finset.mem_insert_self _ S) hq0
        · exact hc
  exact (Finset.card_le_card hsub).trans (Finset.card_union_le _ _)

/-- C15: `addToThickVertex` terminates on every finite raster, for every seed and every
initial set. Every depth budget above the number of on-canvas pixels outside the set (after
the insertion of the seed) is enough for the call to return, with one and the same set; each
recursive call adds one pixel that was not in the set, so the number `k` of recursive calls
is the number of pixels added besides the seed, and it is bounded by the number of on-canvas
pixels outside the set, hence by the number of canvas pixels. -/
theorem addToThickVertex_terminates (f : PixelFrame) (seed : Pixel) (S : Finset Pixel) :
    ∃ S' k, addToThickVertex f seed S = some S' ∧
      (∀ depth, (canvas f \ insert seed S).card < depth →
        addToThickVertexDepth f depth seed S = some S') ∧
      addToThickVertexCalls f (f.width * f.height + 1) seed S = some (S', k) ∧
      k + (insert seed S).card = S'.card ∧
      k ≤ (canvas f \ insert seed S).card ∧ k ≤ f.width * f.height := by
  obtain ⟨S', hS', hexp⟩ := addToThickVertex_total f seed S
  have hfst := addToThickVertexCalls_fst f (f.width * f.height + 1) seed S
  have hS'' : addToThickVertexDepth f (f.width * f.height + 1) seed S = some S' := hS'
  rw [hS''] at hfst
  obtain ⟨⟨T, k⟩, hcalls, hT⟩ := Option.map_eq_some'.mp hfst
  simp only at hT
  subst hT
  have hcount := addToThickVertexCalls_count f _ seed S T k hcalls
  have hcard := card_le_of_expanded f seed S T hexp
  have hcanvas : (canvas f \ insert seed S).card ≤ f.width * f.height :=
    (Finset.card_le_card Finset.sdiff_subset).trans (card_canvas_le f)
  refine ⟨T, k, hS', ?_, hcalls, hcount, by omega, by omega⟩
  intro depth hdepth
  obtain ⟨R, hR, -⟩ := addToThickVertexDepth_spec f depth seed S hdepth
  have h1 := addToThickVertexDepth_le f depth (max depth (f.width * f.height + 1))
    (le_max_left _ _) seed S R hR
  have h2 := addToThickVertexDepth_le f (f.width * f.height + 1)
    (max depth (f.width * f.height + 1)) (le_max_right _ _) seed S T hS''
  rw [h1] at h2
  rw [hR, h2]

theorem addToThickVertex_terminates_witness :
    ∃ S' k, addToThickVertex bondFrame ⟨1, 1⟩ ∅ = some S' ∧
      (∀ depth, (canvas bondFrame \ insert ⟨1, 1⟩ ∅).card < depth →
        addToThickVertexDepth bondFrame depth ⟨1, 1⟩ ∅ = some S') ∧
      addToThickVertexCalls bondFrame (bondFrame.width * bondFrame.height + 1) ⟨1, 1⟩ ∅
        = some (S', k) ∧
      k + (insert (⟨1, 1⟩ : Pixel) (∅ : Finset Pixel)).card = S'.card ∧
      k ≤ (canvas bondFrame \ insert ⟨1, 1⟩ ∅).card ∧
      k ≤ bondFrame.width * bondFrame.height :=
  addToThickVertex_terminates bondFrame ⟨1, 1⟩ ∅

end Pixel
end TissueMiner

namespace TissueMiner
namespace Pixel

/-! ### Success and failure of the tracer step in terms of the ring -/

theorem hit_iff_runEndsAt (f : PixelFrame) (p : Pixel) (v : PixelValue) (d0 i : Nat) :
    hit f p v d0 i ↔ runEndsAt f p v ((d0 + i) % 8) := by
  have e : (d0 + (i + 1)) % 8 = ((d0 + i) % 8 + 1) % 8 := by omega
  unfold hit runEndsAt scanValue PixelFrame.NumberOfNeighbors
  rw [e]

theorem exists_hit_iff (f : PixelFrame) (p : Pixel) (v : PixelValue) (d0 : Nat) (hd : d0 < 8) :
    (∃ i, i < 8 ∧ hit f p v d0 i) ↔ ∃ c, c < 8 ∧ runEndsAt f p v c := by
  constructor
  · rintro ⟨i, _, h⟩
    exact ⟨(d0 + i) % 8, Nat.mod_lt _ (by decide), (hit_iff_runEndsAt f p v d0 i).mp h⟩
  · rintro ⟨c, hc, h⟩
    refine ⟨(c + 8 - d0) % 8, Nat.mod_lt _ (by decide), ?_⟩
    rw [hit_iff_runEndsAt]
    have e : (d0 + (c + 8 - d0) % 8) % 8 = c := by omega
    rw [e]
    exact h

/-- The value returned by a call on an on-canvas pixel whose first read is on the canvas:
`-1` when two regions touch or no run of `v` ends on a Bond neighbour, and otherwise the
candidate (a Bond neighbour on which a run of `v` ends) or its clockwise neighbour. -/
theorem call_fst (f : PixelFrame) (p : Pixel) (v : PixelValue) (d : Nat)
    (hp : isOnCanvas f p = true)
    (hstart : isNeighborOnCanvas f p (PixelFrame.oppositeDirection d) = true) :
    ((AdjacencyViolation f p ∨ ∀ c, c < 8 → ¬ runEndsAt f p v c) ∧
        ∃ nb, getLastCommonNeighboringBondPixelInCwOrientation f p v d = some (-1, nb)) ∨
      (¬ AdjacencyViolation f p ∧ ∃ c, c < 8 ∧ runEndsAt f p v c ∧
        ∃ nb, getLastCommonNeighboringBondPixelInCwOrientation f p v d = some
          ((if PixelFrame.diagonalNeighbor ((c + 7) % 8) = false ∧
              ringValue f p ((c + 7) % 8) = BondValue
            then (((c + 7) % 8 : Nat) : Int) else (c : Int)), nb)) := by
  rcases call_cases f p v d hstart with
    ⟨hviol, nb, _, h⟩ | ⟨hno, s, _, ⟨hnone, _, h⟩ | ⟨i, hi, hh, _, _, h⟩⟩
  · exact Or.inl ⟨Or.inl hviol, nb, h⟩
  · refine Or.inl ⟨Or.inr ?_, s.neighbors, h⟩
    intro c hc hr
    obtain ⟨i, hi, hh⟩ := (exists_hit_iff f p v _ (oppositeDirection_lt d)).mpr ⟨c, hc, hr⟩
    exact hnone i hi hh
  · have hon := (ringValue_eq_Bond f p _ hh.1).1
    rw [chooseCwNeighbor_eq f p _ (Nat.mod_lt _ (by decide)) hp hon] at h
    exact Or.inr ⟨hno, _, Nat.mod_lt _ (by decide), (hit_iff_runEndsAt f p v _ i).mp hh,
      s.neighbors, h⟩

theorem cw_adjusted_ne_failure (f : PixelFrame) (p : Pixel) (c : Nat) :
    (if PixelFrame.diagonalNeighbor ((c + 7) % 8) = false ∧
        ringValue f p ((c + 7) % 8) = BondValue
      then (((c + 7) % 8 : Nat) : Int) else (c : Int)) ≠ -1 := by
  split_ifs <;> omega

/-- In a ring that holds the label `v` and some other label, some run of `v` ends in scan
order. -/
theorem exists_run_end (f : PixelFrame) (p : Pixel) (v : PixelValue) (j b : Nat)
    (hj : j < 8) (hb : b < 8) (hjv : ringValue f p j = v) (hbv : ringValue f p b ≠ v) :
    ∃ m, m < 8 ∧ ringValue f p m = v ∧ ringValue f p ((m + 7) % 8) ≠ v := by
  by_contra hcon
  have hall : ∀ m, m < 8 → ringValue f p m = v → ringValue f p ((m + 7) % 8) = v := by
    intro m hm hmv
    by_contra h
    exact hcon ⟨m, hm, hmv, h⟩
  have hwalk : ∀ t : Nat, ringValue f p ((j + 7 * t) % 8) = v := by
    intro t
    induction t with
    | zero =>
      have e : (j + 7 * 0) % 8 = j := by omega
      rw [e]
      exact hjv
    | succ t ih =>
      have e : (j + 7 * (t + 1)) % 8 = ((j + 7 * t) % 8 + 7) % 8 := by omega
      rw [e]
      exact hall _ (Nat.mod_lt _ (by decide)) ih
  have e : (j + 7 * ((j + 8 - b) % 8)) % 8 = b := by omega
  have := hwalk ((j + 8 - b) % 8)
  rw [e] at this
  exact hbv this

end Pixel
end TissueMiner

namespace TissueMiner
namespace Pixel

/-- Calls whose first read (line 65) is on the canvas succeed exactly on complete rings:
for every on-canvas pixel, entering direction whose neighbour at
`oppositeDirection(oldDirection)` is on the canvas, and region label `v` other than Bond, the
call returns a direction (a value other than `-1`) if and only if no two cyclically
consecutive neighbours carry different non-Bond labels, at least one neighbour has label `v`
and at least one neighbour is Bond; in particular it returns `-1` when all eight neighbours
carry label `v`. -/
theorem call_succeeds_iff (f : PixelFrame) (p : Pixel) (v : PixelValue) (d : Nat)
    (hp : isOnCanvas f p = true)
    (hstart : isNeighborOnCanvas f p (PixelFrame.oppositeDirection d) = true)
    (hv : v ≠ BondValue) :
    ((∃ r nb, getLastCommonNeighboringBondPixelInCwOrientation f p v d = some (r, nb) ∧
          r ≠ -1) ↔
        (¬ AdjacencyViolation f p ∧ (∃ j, j < 8 ∧ ringValue f p j = v) ∧
          ∃ j, j < 8 ∧ ringValue f p j = BondValue)) ∧
      ((∀ j, j < 8 → ringValue f p j = v) →
        ∃ nb, getLastCommonNeighboringBondPixelInCwOrientation f p v d = some (-1, nb)) := by
  have key : (∃ r nb, getLastCommonNeighboringBondPixelInCwOrientation f p v d = some (r, nb) ∧
        r ≠ -1) ↔
      (¬ AdjacencyViolation f p ∧ (∃ j, j < 8 ∧ ringValue f p j = v) ∧
        ∃ j, j < 8 ∧ ringValue f p j = BondValue) := by
    constructor
    · rintro ⟨r, nb, hr, hne⟩
      rcases call_fst f p v d hp hstart with ⟨_, nb1, h⟩ | ⟨hno, c, hc, hrun, _⟩
      · rw [h] at hr
        simp only [Option.some.injEq, Prod.mk.injEq] at hr
        exact absurd hr.1.symm hne
      · exact ⟨hno, ⟨(c + 1) % 8, Nat.mod_lt _ (by decide), hrun.2.1⟩, ⟨c, hc, hrun.1⟩⟩
    · rintro ⟨hno, ⟨j, hj, hjv⟩, ⟨b, hb, hbb⟩⟩
      have hbv : ringValue f p b ≠ v := by
        rw [hbb]
        exact fun h => hv h.symm
      obtain ⟨m, hm, hm1, hm2⟩ := exists_run_end f p v j b hj hb hjv hbv
      obtain ⟨i, hi, hh⟩ :=
        hit_of_run_end f p v _ m (oppositeDirection_lt d) hm hv hno hm1 hm2
      have hrun : ∃ c, c < 8 ∧ runEndsAt f p v c :=
        (exists_hit_iff f p v _ (oppositeDirection_lt d)).mp ⟨i, hi, hh⟩
      rcases call_fst f p v d hp hstart with ⟨hfail, _⟩ | ⟨_, c, _, _, nb, h⟩
      · rcases hfail with hviol | hnone
        · exact absurd hviol hno
        · obtain ⟨c, hc, hr⟩ := hrun
          exact absurd hr (hnone c hc)
      · exact ⟨_, nb, h, cw_adjusted_ne_failure f p c⟩
  refine ⟨key, fun hall => ?_⟩
  obtain ⟨r, nb, hr⟩ := call_defined f p v d hp hstart
  by_cases hne : r = -1
  · subst hne
    exact ⟨nb, hr⟩
  · exfalso
    obtain ⟨_, _, ⟨b, hb, hbb⟩⟩ := key.mp ⟨r, nb, hr, hne⟩
    rw [hall b hb] at hbb
    exact hv hbb

theorem call_succeeds_iff_witness :
    (¬ AdjacencyViolation stripesFrame ⟨1, 1⟩ ∧
        (∃ j, j < 8 ∧ ringValue stripesFrame ⟨1, 1⟩ j = 1) ∧
        ∃ j, j < 8 ∧ ringValue stripesFrame ⟨1, 1⟩ j = BondValue) ∧
      ∃ r nb, getLastCommonNeighboringBondPixelInCwOrientation stripesFrame ⟨1, 1⟩ 1 0
          = some (r, nb) ∧ r ≠ -1 :=
  ⟨⟨by decide, ⟨6, by decide, by decide⟩, ⟨0, by decide, by decide⟩⟩,
    (call_succeeds_iff stripesFrame ⟨1, 1⟩ 1 0 (by decide) (by decide) (by decide)).1.mpr
      ⟨by decide, ⟨6, by decide, by decide⟩, ⟨0, by decide, by decide⟩⟩⟩

/-- Calls whose first reads (line 65) are on the canvas do not depend on the entering
direction: for every on-canvas pixel, region label `v` and two entering directions
whose neighbours at `oppositeDirection(oldDirection)` are on the canvas, the call fails
(returns `-1`) for the one direction if and only if it does for the other, and if the
neighbours labelled `v` form a single cyclic run the returned value is the same for both
directions. -/
theorem result_independent_of_direction (f : PixelFrame) (p : Pixel) (v : PixelValue)
    (d d' : Nat) (hp : isOnCanvas f p = true)
    (hstart : isNeighborOnCanvas f p (PixelFrame.oppositeDirection d) = true)
    (hstart' : isNeighborOnCanvas f p (PixelFrame.oppositeDirection d') = true) :
    ((∃ nb, getLastCommonNeighboringBondPixelInCwOrientation f p v d = some (-1, nb)) ↔
        ∃ nb, getLastCommonNeighboringBondPixelInCwOrientation f p v d' = some (-1, nb)) ∧
      (SingleRun f p v →
        (getLastCommonNeighboringBondPixelInCwOrientation f p v d).map Prod.fst =
          (getLastCommonNeighboringBondPixelInCwOrientation f p v d').map Prod.fst) := by
  have one : ∀ a b : Nat, isNeighborOnCanvas f p (PixelFrame.oppositeDirection a) = true →
      isNeighborOnCanvas f p (PixelFrame.oppositeDirection b) = true →
      (∃ nb, getLastCommonNeighboringBondPixelInCwOrientation f p v a = some (-1, nb)) →
      ∃ nb, getLastCommonNeighboringBondPixelInCwOrientation f p v b = some (-1, nb) := by
    intro a b ha hb ⟨nb, hnb⟩
    rcases call_fst f p v a hp ha with ⟨hfail, _⟩ | ⟨_, c, _, _, nb1, h⟩
    · rcases call_fst f p v b hp hb with ⟨_, h2⟩ | ⟨hno, c, hc, hrun, _⟩
      · exact h2
      · rcases hfail with hviol | hnone
        · exact absurd hviol hno
        · exact absurd hrun (hnone c hc)
    · rw [h] at hnb
      simp only [Option.some.injEq, Prod.mk.injEq] at hnb
      exact absurd hnb.1 (cw_adjusted_ne_failure f p c)
  refine ⟨⟨one d d' hstart hstart', one d' d hstart' hstart⟩, fun hsingle => ?_⟩
  rcases call_fst f p v d hp hstart with ⟨hfail, nb, h⟩ | ⟨hno, c, hc, hrun, nb, h⟩
  · obtain ⟨nb', h'⟩ := one d d' hstart hstart' ⟨nb, h⟩
    rw [h, h']
    rfl
  · rcases call_fst f p v d' hp hstart' with ⟨hfail, _⟩ | ⟨_, c', hc', hrun', nb', h'⟩
    · rcases hfail with hviol | hnone
      · exact absurd hviol hno
      · exact absurd hrun (hnone c hc)
    · have e1 : ((c + 1) % 8 + 7) % 8 = c := by omega
      have e2 : ((c' + 1) % 8 + 7) % 8 = c' := by omega
      have hm : (c + 1) % 8 = (c' + 1) % 8 := by
        refine hsingle _ (Nat.mod_lt _ (by decide)) _ (Nat.mod_lt _ (by decide)) ⟨hrun.2.1, ?_⟩
          ⟨hrun'.2.1, ?_⟩
        · rw [e1, ← hrun.2.1]
          exact hrun.2.2
        · rw [e2, ← hrun'.2.1]
          exact hrun'.2.2
      have hcc : c = c' := by omega
      subst hcc
      rw [h, h']
      rfl

theorem result_independent_of_direction_witness :
    SingleRun stripesFrame ⟨1, 1⟩ 1 ∧
      (getLastCommonNeighboringBondPixelInCwOrientation stripesFrame ⟨1, 1⟩ 1 0).map Prod.fst =
        (getLastCommonNeighboringBondPixelInCwOrientation stripesFrame ⟨1, 1⟩ 1 4).map Prod.fst :=
  ⟨by decide,
    (result_independent_of_direction stripesFrame ⟨1, 1⟩ 1 0 4 (by decide) (by decide)
      (by decide)).2 (by decide)⟩

end Pixel
end TissueMiner

namespace TissueMiner
namespace Pixel

/-! ### Orthogonal steps are preferred -/

theorem ringValue_of_data (f : PixelFrame) (p : Pixel) (i : Nat) (x : PixelValue)
    (h : data f (neighbor p i) = some x) : ringValue f p i = x := by
  have hon : isNeighborOnCanvas f p i = true := isOnCanvas_of_data f _ _ h
  rw [data_neighbor_of_onCanvas f p i hon] at h
  exact Option.some.inj h

/-- The two ways lines 93-101 can return: the candidate itself, when its clockwise neighbour
is diagonal or not Bond, or the clockwise neighbour, when that is orthogonal and Bond. -/
theorem chooseCwNeighbor_cases (f : PixelFrame) (p : Pixel) (c : Nat) (r : Int)
    (h : chooseCwNeighbor f p (c : Int) = some r) :
    (r = (c : Int) ∧ (PixelFrame.diagonalNeighbor ((c + 7) % 8) = true ∨
        ∃ x, data f (neighbor p ((c + 7) % 8)) = some x ∧ x ≠ BondValue)) ∨
      (r = (((c + 7) % 8 : Nat) : Int) ∧ PixelFrame.diagonalNeighbor ((c + 7) % 8) = false ∧
        data f (neighbor p ((c + 7) % 8)) = some BondValue) := by
  have e : (((PixelFrame.NumberOfNeighbors : Int) - 1 + (c : Int))
      % (PixelFrame.NumberOfNeighbors : Int)) = (((c + 7) % 8 : Nat) : Int) := by
    unfold PixelFrame.NumberOfNeighbors
    omega
  unfold chooseCwNeighbor at h
  simp only [e, Int.toNat_ofNat] at h
  by_cases hd : PixelFrame.diagonalNeighbor ((c + 7) % 8) = true
  · simp only [hd, if_true, Option.some.injEq] at h
    exact Or.inl ⟨h.symm, Or.inl hd⟩
  · simp only [hd, Bool.false_eq_true, if_false] at h
    simp only [Bool.not_eq_true] at hd
    cases hx : data f (neighbor p ((c + 7) % 8)) with
    | none => simp [hx] at h
    | some x =>
      simp only [hx, Option.some_bind] at h
      by_cases hxb : x = BondValue
      · simp only [hxb, if_true, Option.some.injEq] at h
        exact Or.inr ⟨h.symm, hd, by rw [hxb]⟩
      · simp only [hxb, if_false, Option.some.injEq] at h
        exact Or.inl ⟨h.symm, Or.inr ⟨x, rfl, hxb⟩⟩

/-- C14: the tracer keeps the path 4-connected wherever it can. Whenever the call returns a
diagonal direction `r`, the neighbour at `(r+1) mod 8` carries the region label (which is not
Bond) and the neighbour at `(r-1) mod 8` is not Bond; and whenever the scan ends with a
diagonal candidate whose clockwise (orthogonal) neighbour is Bond, the call returns that
orthogonal direction instead of the candidate. -/
theorem diagonal_only_when_forced (f : PixelFrame) (p : Pixel) (v : PixelValue) (d : Nat) :
    (∀ r nb, getLastCommonNeighboringBondPixelInCwOrientation f p v d = some (r, nb) →
        r ≠ -1 → PixelFrame.diagonalNeighbor r.toNat = true →
        ringValue f p ((r.toNat + 1) % 8) = v ∧ v ≠ BondValue ∧
          ringValue f p ((r.toNat + 7) % 8) ≠ BondValue) ∧
      (∀ s, scanNeighbors f p v d = some (ScanResult.running s) →
        0 ≤ s.firstBondIndexAfterV →
        PixelFrame.diagonalNeighbor s.firstBondIndexAfterV.toNat = true →
        ringValue f p ((s.firstBondIndexAfterV.toNat + 7) % 8) = BondValue →
        ∃ nb, getLastCommonNeighboringBondPixelInCwOrientation f p v d
          = some ((((s.firstBondIndexAfterV.toNat + 7) % 8 : Nat) : Int), nb)) := by
  constructor
  · intro r nb hret hok hdiag
    by_cases hstart : isNeighborOnCanvas f p (PixelFrame.oppositeDirection d) = true
    · rcases call_cases f p v d hstart with
        ⟨_, nb1, _, h⟩ | ⟨_, s, _, ⟨_, _, h⟩ | ⟨i, _, hh, _, _, h⟩⟩
      · rw [h] at hret
        simp only [Option.some.injEq, Prod.mk.injEq] at hret
        exact absurd hret.1.symm hok
      · rw [h] at hret
        simp only [Option.some.injEq, Prod.mk.injEq] at hret
        exact absurd hret.1.symm hok
      · rw [h] at hret
        cases hc : chooseCwNeighbor f p (((PixelFrame.oppositeDirection d + i) % 8 : Nat) : Int)
          with
        | none =>
          rw [hc] at hret
          cases hret
        | some r1 =>
          rw [hc] at hret
          simp only [Option.map_some', Option.some.injEq, Prod.mk.injEq] at hret
          have hr : r1 = r := hret.1
          subst hr
          have hrun := (hit_iff_runEndsAt f p v _ i).mp hh
          rcases chooseCwNeighbor_cases f p _ r1 hc with ⟨e, hwhy⟩ | ⟨e, hnd, _⟩
          · subst e
            rw [Int.toNat_ofNat] at hdiag ⊢
            refine ⟨hrun.2.1, ?_, ?_⟩
            · rw [← hrun.2.1, ← hrun.1]
              exact fun h => hrun.2.2 h.symm
            · rcases hwhy with hd7 | ⟨x, hx, hxb⟩
              · exfalso
                simp only [PixelFrame.diagonalNeighbor, beq_iff_eq] at hdiag hd7
                omega
              · rw [ringValue_of_data f p _ x hx]
                exact hxb
          · exfalso
            subst e
            rw [Int.toNat_ofNat] at hdiag
            rw [hdiag] at hnd
            cases hnd
    · exfalso
      simp only [Bool.not_eq_true] at hstart
      unfold getLastCommonNeighboringBondPixelInCwOrientation at hret
      rw [scanNeighbors_of_offCanvas f p v d hstart] at hret
      simp at hret
  · intro s hs h0 hdiag hbond
    obtain ⟨c, hc⟩ : ∃ c : Nat, s.firstBondIndexAfterV = (c : Int) :=
      ⟨s.firstBondIndexAfterV.toNat, (Int.toNat_of_nonneg h0).symm⟩
    rw [hc, Int.toNat_ofNat] at hdiag hbond ⊢
    have hnd : PixelFrame.diagonalNeighbor ((c + 7) % 8) = false := by
      simp only [PixelFrame.diagonalNeighbor, beq_iff_eq, beq_eq_false_iff_ne, ne_eq] at hdiag ⊢
      omega
    have hdata := (ringValue_eq_Bond f p _ hbond).2
    have e : (((PixelFrame.NumberOfNeighbors : Int) - 1 + (c : Int))
        % (PixelFrame.NumberOfNeighbors : Int)) = (((c + 7) % 8 : Nat) : Int) := by
      unfold PixelFrame.NumberOfNeighbors
      omega
    have hchoose : chooseCwNeighbor f p (c : Int) = some (((c + 7) % 8 : Nat) : Int) := by
      unfold chooseCwNeighbor
      simp only [e, Int.toNat_ofNat, hnd, Bool.false_eq_true, if_false, hdata,
        Option.some_bind, if_true]
    refine ⟨s.neighbors, ?_⟩
    unfold getLastCommonNeighboringBondPixelInCwOrientation
    rw [hs]
    have hnot : ¬ s.firstBondIndexAfterV < 0 := by omega
    simp only [hnot, if_false]
    rw [hc, hchoose]
    rfl

theorem diagonal_only_when_forced_witness :
    (getLastCommonNeighboringBondPixelInCwOrientation diagonalFrame ⟨1, 1⟩ 1 0
        = some (1, [1, 2]) ∧
      ringValue diagonalFrame ⟨1, 1⟩ (((1 : Int).toNat + 1) % 8) = 1 ∧
      (1 : PixelValue) ≠ BondValue ∧
      ringValue diagonalFrame ⟨1, 1⟩ (((1 : Int).toNat + 7) % 8) ≠ BondValue) ∧
      getLastCommonNeighboringBondPixelInCwOrientation cornerFrame ⟨1, 1⟩ 1 0
        = some (0, [1]) :=
  ⟨⟨by decide,
    (diagonal_only_when_forced diagonalFrame ⟨1, 1⟩ 1 0).1 1 [1, 2] (by decide) (by decide)
      (by decide)⟩, by decide⟩

end Pixel
end TissueMiner

namespace TissueMiner
namespace Pixel

/-! ### The output list `neighbors` -/

end Pixel
end TissueMiner

namespace TissueMiner
namespace Pixel

end Pixel
end TissueMiner

namespace TissueMiner
namespace Pixel

/-! ### The call after its unchecked first read -/

/-- The call is the read of line 65 followed by `afterFirstRead` on the word it yielded. -/
theorem call_eq_bind_afterFirstRead (f : PixelFrame) (p : Pixel) (v : PixelValue) (d : Nat) :
    getLastCommonNeighboringBondPixelInCwOrientation f p v d =
      (data f (neighbor p (PixelFrame.oppositeDirection d))).bind (afterFirstRead f p v d) := by
  unfold getLastCommonNeighboringBondPixelInCwOrientation scanNeighbors
  cases h : data f (neighbor p (PixelFrame.oppositeDirection d)) with
  | none => simp only [h, Option.none_bind]
  | some x =>
    simp only [h, Option.some_bind]
    rfl

end Pixel
end TissueMiner

namespace TissueMiner
namespace Pixel

/-! ### What the unchecked first read does to the tracer step

The read of line 65 has no bounds check. At a pixel on the canvas edge entered so that
`oppositeDirection(oldDirection)` points off the canvas it yields a word that is no label of
the neighbour ring, and the rest of the call, `afterFirstRead`, runs on that word. -/

/-- C1 fails on the code: at the on-canvas Bond pixel `(0,1)` of `twoRunsEdgeFrame`, for
region 1 entered with `oldDirection = 2`, the ring has no adjacency violation and the
reference definition gives direction 2; the read of line 65 is off the canvas, and when it
yields a word that is neither Bond nor Outside (here 1 or 0) the call returns `-1`. With the
Outside sentinel that the guard of line 69 substitutes, the call returns 2. -/
theorem stray_first_read_breaks_reference :
    (1 : PixelValue) ≠ BondValue ∧ ¬ AdjacencyViolation twoRunsEdgeFrame ⟨0, 1⟩ ∧
      isOnCanvas twoRunsEdgeFrame ⟨0, 1⟩ = true ∧
      isNeighborOnCanvas twoRunsEdgeFrame ⟨0, 1⟩ (PixelFrame.oppositeDirection 2) = false ∧
      nextBoundaryPixel twoRunsEdgeFrame ⟨0, 1⟩ 1 2 = 2 ∧
      afterFirstRead twoRunsEdgeFrame ⟨0, 1⟩ 1 2 1 = some (-1, []) ∧
      afterFirstRead twoRunsEdgeFrame ⟨0, 1⟩ 1 2 0 = some (-1, []) ∧
      afterFirstRead twoRunsEdgeFrame ⟨0, 1⟩ 1 2 OutsideCanvasValue
        = some (2, [OutsideCanvasValue, 1, 1]) := by
  decide

/-- C2 fails on the code: at the on-canvas Bond pixel `(0,1)` of `edgeTouchFrame` region 1
(west) touches the Outside (north-west) with no Bond between them; entered with
`oldDirection = 1` the read of line 65 is off the canvas, the touching pair is compared
against the word it yields, and when that word is 1 or Bond the call returns direction 0
instead of `-1`. With the Outside sentinel that the guard of line 69 substitutes, the call
returns `-1`. -/
theorem stray_first_read_hides_adjacency_violation :
    AdjacencyViolation edgeTouchFrame ⟨0, 1⟩ ∧ isOnCanvas edgeTouchFrame ⟨0, 1⟩ = true ∧
      isNeighborOnCanvas edgeTouchFrame ⟨0, 1⟩ (PixelFrame.oppositeDirection 1) = false ∧
      afterFirstRead edgeTouchFrame ⟨0, 1⟩ 1 1 1 = some (0, [1]) ∧
      afterFirstRead edgeTouchFrame ⟨0, 1⟩ 1 1 BondValue = some (0, [1]) ∧
      afterFirstRead edgeTouchFrame ⟨0, 1⟩ 1 1 OutsideCanvasValue = some (-1, []) := by
  decide

/-- C4 fails on the code: no neighbour of the on-canvas Bond pixel `(1,0)` of
`strayLabelFrame` has label 7; entered with `oldDirection = 7` the read of line 65 is off
the canvas, and when it yields 7 the loop takes that word for a run of region 7 ending on the
south neighbour and the call returns direction 2 instead of `-1`. With the Outside sentinel
that the guard of line 69 substitutes, the call returns `-1`. -/
theorem stray_first_read_supplies_missing_label :
    (∀ j, j < 8 → ringValue strayLabelFrame ⟨1, 0⟩ j ≠ 7) ∧
      isOnCanvas strayLabelFrame ⟨1, 0⟩ = true ∧
      isNeighborOnCanvas strayLabelFrame ⟨1, 0⟩ (PixelFrame.oppositeDirection 7) = false ∧
      afterFirstRead strayLabelFrame ⟨1, 0⟩ 7 7 7 = some (2, [7]) ∧
      afterFirstRead strayLabelFrame ⟨1, 0⟩ 7 7 OutsideCanvasValue
        = some (-1, [OutsideCanvasValue]) := by
  decide

/-- C6 fails on the code: around the on-canvas Bond pixel `(0,1)` of `twoRunsEdgeFrame`
region 1 occupies two separate runs (south-east and south-west) and no two regions touch;
from `oppositeDirection(1) = 5` the first run of region 1 ends on the south neighbour
(`k = 3`, direction 2). The read of line 65 is off the canvas, and when it yields 1 the loop
records the west neighbour, direction 4, as candidate and the call returns 4. With the
Outside sentinel that the guard of line 69 substitutes, the call returns 2. -/
theorem stray_first_read_moves_candidate :
    ¬ AdjacencyViolation twoRunsEdgeFrame ⟨0, 1⟩ ∧
      (ringValue twoRunsEdgeFrame ⟨0, 1⟩ 1 = 1 ∧ ringValue twoRunsEdgeFrame ⟨0, 1⟩ 0 ≠ 1) ∧
      (ringValue twoRunsEdgeFrame ⟨0, 1⟩ 3 = 1 ∧ ringValue twoRunsEdgeFrame ⟨0, 1⟩ 2 ≠ 1) ∧
      isOnCanvas twoRunsEdgeFrame ⟨0, 1⟩ = true ∧
      isNeighborOnCanvas twoRunsEdgeFrame ⟨0, 1⟩ (PixelFrame.oppositeDirection 1) = false ∧
      (List.range' 1 8).find? (endsRunAt twoRunsEdgeFrame ⟨0, 1⟩ 1 (PixelFrame.oppositeDirection 1))
        = some 3 ∧
      scanLoop twoRunsEdgeFrame ⟨0, 1⟩ 1 (PixelFrame.oppositeDirection 1) 8
          { firstBondIndexAfterV := -1, lastValue := 1, neighbors := [] }
        = some (ScanResult.running
          { firstBondIndexAfterV := 4, lastValue := OutsideCanvasValue, neighbors := [1, 1, 1] }) ∧
      afterFirstRead twoRunsEdgeFrame ⟨0, 1⟩ 1 1 1 = some (4, [1, 1, 1]) ∧
      afterFirstRead twoRunsEdgeFrame ⟨0, 1⟩ 1 1 OutsideCanvasValue
        = some (2, [OutsideCanvasValue, 1, 1]) := by
  decide

/-- C13 fails on the code: around the on-canvas Bond pixel `(0,1)` of `twoRunsEdgeFrame` no
two regions touch, region 1 is present and Bond neighbours are present; entered with
`oldDirection = 3` the read of line 65 is off the canvas, and when it yields a word that is
neither Bond nor Outside (here 1 or 0) the call returns `-1`. With the Outside sentinel that
the guard of line 69 substitutes, the call returns direction 2. -/
theorem stray_first_read_fails_complete_ring :
    (1 : PixelValue) ≠ BondValue ∧ ¬ AdjacencyViolation twoRunsEdgeFrame ⟨0, 1⟩ ∧
      (∃ j, j < 8 ∧ ringValue twoRunsEdgeFrame ⟨0, 1⟩ j = 1) ∧
      (∃ j, j < 8 ∧ ringValue twoRunsEdgeFrame ⟨0, 1⟩ j = BondValue) ∧
      isOnCanvas twoRunsEdgeFrame ⟨0, 1⟩ = true ∧
      isNeighborOnCanvas twoRunsEdgeFrame ⟨0, 1⟩ (PixelFrame.oppositeDirection 3) = false ∧
      afterFirstRead twoRunsEdgeFrame ⟨0, 1⟩ 1 3 1 = some (-1, []) ∧
      afterFirstRead twoRunsEdgeFrame ⟨0, 1⟩ 1 3 0 = some (-1, []) ∧
      afterFirstRead twoRunsEdgeFrame ⟨0, 1⟩ 1 3 OutsideCanvasValue
        = some (2, [OutsideCanvasValue, 1, 1]) := by
  refine ⟨by decide, by decide, ⟨1, by decide, by decide⟩, ⟨0, by decide, by decide⟩,
    by decide, by decide, by decide, by decide, by decide⟩

/-- C18 fails on the code: around the on-canvas Bond pixel `(0,1)` of `singleRunEdgeFrame`
the neighbours labelled 1 form a single run and no two regions touch. Entered with
`oldDirection = 4` the call returns direction 0. Entered with `oldDirection = 3` or `1` the
read of line 65 is off the canvas; when it yields 1 the call returns `-1` for
`oldDirection = 3` and direction 4 for `oldDirection = 1`. With the Outside sentinel that the
guard of line 69 substitutes, both calls return 0. -/
theorem stray_first_read_depends_on_direction :
    SingleRun singleRunEdgeFrame ⟨0, 1⟩ 1 ∧ ¬ AdjacencyViolation singleRunEdgeFrame ⟨0, 1⟩ ∧
      isOnCanvas singleRunEdgeFrame ⟨0, 1⟩ = true ∧
      getLastCommonNeighboringBondPixelInCwOrientation singleRunEdgeFrame ⟨0, 1⟩ 1 4
        = some (0, [OutsideCanvasValue, 1]) ∧
      isNeighborOnCanvas singleRunEdgeFrame ⟨0, 1⟩ (PixelFrame.oppositeDirection 3) = false ∧
      afterFirstRead singleRunEdgeFrame ⟨0, 1⟩ 1 3 1 = some (-1, []) ∧
      isNeighborOnCanvas singleRunEdgeFrame ⟨0, 1⟩ (PixelFrame.oppositeDirection 1) = false ∧
      afterFirstRead singleRunEdgeFrame ⟨0, 1⟩ 1 1 1 = some (4, [1, 1]) ∧
      afterFirstRead singleRunEdgeFrame ⟨0, 1⟩ 1 3 OutsideCanvasValue
        = some (0, [OutsideCanvasValue, 1]) ∧
      afterFirstRead singleRunEdgeFrame ⟨0, 1⟩ 1 1 OutsideCanvasValue
        = some (0, [OutsideCanvasValue, 1]) := by
  decide

end Pixel
end TissueMiner
